import Mathlib

/-!
Shallow embedding of `src/intelhex_editor.py` (class `IntelHexFile`): the Intel
HEX record codec (`parse_line`), the file loader (`load_file`), the memory
accessors (`read_memory`, `write_memory`) and the serializer (`save_file`),
together with proofs about them.

Python strings are modelled as `List Char`, the `self.data` dict as an
insertion-ordered association list with unique keys (`dictInsert` updates in
place, exactly like assignment into a Python dict), machine integers as `Nat`
(Python ints are unbounded and non-negative in every reachable state here),
and exceptions as explicit error values.
-/

namespace IntelHex

/-- Characters removed by Python `str.strip()` with no argument (ASCII
whitespace; none of the inputs handled in this development contains other
Unicode whitespace). -/
def isPySpace (c : Char) : Bool :=
  c = ' ' || c = '\t' || c = '\n' || c = '\r' || c = '\x0b' || c = '\x0c'

/-- Python `s.strip()`: drop whitespace from both ends. -/
def pyStrip (l : List Char) : List Char :=
  ((l.dropWhile isPySpace).reverse.dropWhile isPySpace).reverse

/-- Python slice `s[a:b]` for `0 ≤ a ≤ b` (out-of-range indices clamp, exactly
as in Python). -/
def pySlice (l : List Char) (a b : Nat) : List Char := (l.drop a).take (b - a)

/-- Hexadecimal digit (0-9, a-f, A-F), as accepted by `int(s, 16)` and
`bytes.fromhex`. -/
def isHexDigit (c : Char) : Bool :=
  ('0' ≤ c && c ≤ '9') || ('a' ≤ c && c ≤ 'f') || ('A' ≤ c && c ≤ 'F')

/-- Numeric value of a hexadecimal digit (0 for other characters; only ever
applied to hexadecimal digits). -/
def hexDigitVal (c : Char) : Nat :=
  if '0' ≤ c && c ≤ '9' then c.toNat - '0'.toNat
  else if 'a' ≤ c && c ≤ 'f' then c.toNat - 'a'.toNat + 10
  else if 'A' ≤ c && c ≤ 'F' then c.toNat - 'A'.toNat + 10
  else 0

/-- Value of a list of hexadecimal digits, most significant first. -/
def hexVal (l : List Char) : Nat := l.foldl (fun a c => 16 * a + hexDigitVal c) 0

/-- Model of Python `int(s, 16)`: fails (ValueError) on the empty string or on
any character that is not a hexadecimal digit, otherwise returns the value.
(Python additionally tolerates surrounding whitespace, a sign, underscores
between digits and a `0x` prefix; no input reaching `int` in this program and
in the statements below contains those, so the restriction is faithful.) -/
def hexToNat? (l : List Char) : Option Nat :=
  if l = [] then none
  else if l.all isHexDigit then some (hexVal l) else none

/-- Model of Python `bytes.fromhex(s)`: requires an even number of
hexadecimal digits and pairs them into bytes; fails (ValueError) otherwise.
(Python additionally ignores ASCII whitespace between pairs; no input handled
here contains whitespace.) -/
def fromhex? : List Char → Option (List Nat)
  | [] => some []
  | [_] => none
  | c1 :: c2 :: rest =>
    if isHexDigit c1 && isHexDigit c2 then
      (fromhex? rest).map (fun bs => (16 * hexDigitVal c1 + hexDigitVal c2) :: bs)
    else none

/-- Upper-case hexadecimal digit character for a value below 16, as produced
by Python format specifier X. -/
def hexDigitChar (n : Nat) : Char :=
  if n < 10 then Char.ofNat ('0'.toNat + n) else Char.ofNat ('A'.toNat + (n - 10))

/-- Hexadecimal digits of `n`, most significant first.  The first argument is
structural-recursion fuel; any fuel larger than the digit count gives the
same result (`toHex` always passes enough). -/
def toHexFuel : Nat → Nat → List Char
  | 0, _ => []
  | fuel + 1, n =>
    if n < 16 then [hexDigitChar n]
    else toHexFuel fuel (n / 16) ++ [hexDigitChar (n % 16)]

/-- Python `format(n, 'X')`: minimal-width upper-case hexadecimal digits of
`n` (a single `'0'` for zero). -/
def toHex (n : Nat) : List Char := toHexFuel (n + 1) n

/-- Python `format(n, '0{w}X')`: `toHex n` left-padded with `'0'` to width
`w` (never truncated; values wider than `w` keep all their digits, exactly as
in Python). -/
def fmtHex (w n : Nat) : List Char :=
  List.replicate (w - (toHex n).length) '0' ++ toHex n

/-- Python `(-total) & 0xFF` for a non-negative `total`: the least
non-negative residue of `-total` modulo 256. -/
def negMod256 (total : Nat) : Nat := (256 - total % 256) % 256

/-- Python `int.from_bytes(bs, 'big')`. -/
def intFromBytesBE (bs : List Nat) : Nat := bs.foldl (fun a b => 256 * a + b) 0

/-- A decoded record: `return record_type, address, data` in `parse_line`. -/
structure ParsedRecord where
  rtype : Nat
  address : Nat
  data : List Nat
deriving DecidableEq

/-- The ValueError exits of `parse_line`.  In terms of the design document's
taxonomy: `invalidFraming` is InvalidFraming (missing leading marker),
`fieldError` is the ValueError raised by `int(..., 16)` on an empty or
non-hexadecimal slice or by `bytes.fromhex` on a bad slice (this is how
TruncatedRecord surfaces), and `checksumMismatch expected computed` is
ChecksumMismatch (`expected` is the checksum byte read from the line,
`computed` the recomputed one, matching the error message's wording). -/
inductive ParseError where
  | invalidFraming : ParseError
  | fieldError : ParseError
  | checksumMismatch (expected computed : Nat) : ParseError
deriving DecidableEq

/-- `IntelHexFile.parse_line` (staticmethod): slices the line after the `:`
marker into count, address, type, payload and checksum fields, validates the
checksum and returns the record. -/
def parse_line (line : List Char) : Except ParseError ParsedRecord :=
  match line with
  | ':' :: rest =>
    match hexToNat? (pySlice rest 0 2) with
    | none => .error .fieldError
    | some byte_count =>
      match hexToNat? (pySlice rest 2 6) with
      | none => .error .fieldError
      | some address =>
        match hexToNat? (pySlice rest 6 8) with
        | none => .error .fieldError
        | some record_type =>
          match fromhex? (pySlice rest 8 (8 + byte_count * 2)) with
          | none => .error .fieldError
          | some data =>
            match hexToNat? (pySlice rest (8 + byte_count * 2) (10 + byte_count * 2)) with
            | none => .error .fieldError
            | some checksum =>
              let total := byte_count + (address >>> 8) + (address &&& 0xFF)
                + record_type + data.sum
              let computed_checksum := negMod256 total
              if computed_checksum ≠ checksum then
                .error (.checksumMismatch checksum computed_checksum)
              else
                .ok ⟨record_type, address, data⟩
  | _ => .error .invalidFraming

/-- Python dict lookup `d.get(k)` on the ordered association list. -/
def dictGet (d : List (Nat × Nat)) (k : Nat) : Option Nat :=
  (d.find? (fun p => p.1 == k)).map (fun p => p.2)

/-- Python dict assignment `d[k] = v`: update in place if the key is present,
otherwise append (insertion order preserved, keys stay unique). -/
def dictInsert : List (Nat × Nat) → Nat → Nat → List (Nat × Nat)
  | [], k, v => [(k, v)]
  | p :: rest, k, v =>
    if p.1 = k then (k, v) :: rest else p :: dictInsert rest k v

/-- Python `d.keys()` (in insertion order). -/
def dictKeys (d : List (Nat × Nat)) : List Nat := d.map (fun p => p.1)

/-- `for i, byte in enumerate(bs): d[addr + i] = byte`. -/
def writeBytes : List (Nat × Nat) → Nat → List Nat → List (Nat × Nat)
  | d, _, [] => d
  | d, addr, b :: bs => writeBytes (dictInsert d addr b) (addr + 1) bs

/-- The `IntelHexFile` object state: `self.data` and `self.start_address`. -/
structure IntelHexFile where
  data : List (Nat × Nat)
  start_address : Option Nat
deriving DecidableEq

/-- A freshly constructed `IntelHexFile()`. -/
def emptyHF : IntelHexFile := { data := [], start_address := none }

/-- The loop body of `IntelHexFile.load_file`, iterating over the lines with
the local state `extended_address` and `first_data_address`.  Returns the
object state together with `first_data_address` when the loop finishes or
breaks at an End-Of-File record; propagates the first ValueError. -/
def loadLoop : List (List Char) → IntelHexFile → Nat → Option Nat →
    Except ParseError (IntelHexFile × Option Nat)
  | [], st, _, first_data_address => .ok (st, first_data_address)
  | l :: rest, st, extended_address, first_data_address =>
    let s := pyStrip l
    if s = [] then loadLoop rest st extended_address first_data_address
    else
      match parse_line s with
      | .error e => .error e
      | .ok r =>
        if r.rtype = 0x00 then
          let full_address := extended_address ||| r.address
          let fda :=
            match first_data_address with
            | none => some full_address
            | some x => some x
          loadLoop rest { st with data := writeBytes st.data full_address r.data }
            extended_address fda
        else if r.rtype = 0x01 then
          .ok (st, first_data_address)
        else if r.rtype = 0x04 then
          loadLoop rest st (intFromBytesBE r.data <<< 16) first_data_address
        else if r.rtype = 0x05 then
          loadLoop rest { st with start_address := some (intFromBytesBE r.data) }
            extended_address first_data_address
        else
          loadLoop rest st extended_address first_data_address

/-- `IntelHexFile.load_file`, with the file contents given as its list of
lines: runs the loop with `extended_address = 0` and
`first_data_address = None`, then falls back to the first data address if no
explicit start address was decoded. -/
def load_file (self : IntelHexFile) (lines : List (List Char)) :
    Except ParseError IntelHexFile :=
  match loadLoop lines self 0 none with
  | .error e => .error e
  | .ok (st, first_data_address) =>
    .ok (match st.start_address with
      | none => { st with start_address := first_data_address }
      | some _ => st)

/-- `IntelHexFile.read_memory` with numeric arguments (string arguments are
first converted by `int(·, 16)` in the source; the claims below concern the
memory semantics, stated over the converted numbers):
`''.join(f-two-digit-upper-hex of self.data.get(addr + i, 0xFF) for i in range(length))`. -/
def read_memory (self : IntelHexFile) (addr length : Nat) : List Char :=
  ((List.range length).map (fun i => fmtHex 2 ((dictGet self.data (addr + i)).getD 0xFF))).flatten

/-- A Python value passed as the `data` argument of `write_memory`: a string,
a (non-negative) integer, or anything else. -/
inductive PyValue where
  | pyStr (s : List Char) : PyValue
  | pyInt (n : Nat) : PyValue
  | pyOther : PyValue
deriving DecidableEq

/-- The exception exits of `write_memory`: `typeError` is the explicit
`TypeError` for a value that is neither str nor int, `valueError` the
ValueError raised by `int(..., 16)` inside the list comprehension on a
non-hexadecimal slice. -/
inductive WriteError where
  | typeError : WriteError
  | valueError : WriteError
deriving DecidableEq

/-- The list comprehension
`[int(hex_str[i:i + 2], 16) for i in range(0, len(hex_str), 2)]`:
pairs of characters (a final lone character forms a one-digit slice), fully
evaluated before any mutation; fails if any slice is not hexadecimal. -/
def listBytes? : List Char → Option (List Nat)
  | [] => some []
  | [c] => (hexToNat? [c]).map (fun b => [b])
  | c1 :: c2 :: rest =>
    match hexToNat? [c1, c2], listBytes? rest with
    | some b, some bs => some (b :: bs)
    | _, _ => none

/-- `IntelHexFile.write_memory` with a numeric address, modelled as a state
trace: the result is the object state at return or at raise time, paired with
the exception (if any).  Both raise sites (`TypeError` for a bad type,
`ValueError` inside the comprehension) occur before the mutation loop, so the
state they return is the unchanged input state, exactly as in the source. -/
def write_memory (self : IntelHexFile) (addr : Nat) (data : PyValue) :
    IntelHexFile × Option WriteError :=
  match data with
  | .pyInt n =>
    let hex_str := toHex n
    match listBytes? hex_str with
    | none => (self, some .valueError)
    | some bytes_data => ({ self with data := writeBytes self.data addr bytes_data }, none)
  | .pyStr s =>
    let hex_str := (s.dropWhile (fun c => c = '0' || c = 'x')).map Char.toUpper
    match listBytes? hex_str with
    | none => (self, some .valueError)
    | some bytes_data => ({ self with data := writeBytes self.data addr bytes_data }, none)
  | .pyOther => (self, some .typeError)

/-- Python `sorted` on a list of naturals (insertion sort; `sorted` is
stable, and on a total order any sorting algorithm produces this result). -/
def pySorted (l : List Nat) : List Nat := List.insertionSort (· ≤ ·) l

/-- Python `range(start, stop, step)` for `step > 0`. -/
def rangeStep (start stop step : Nat) : List Nat :=
  (List.range ((stop - start + (step - 1)) / step)).map (fun k => start + step * k)

/-- The data-record line written by `save_file` for one chunk:
`:{byte_count:02X}{base & 0xFFFF:04X}00{data}{checksum:02X}` with
`checksum = (-(byte_count + (base >> 8) + (base & 0xFF) + 0x00 + sum(chunk))) & 0xFF`. -/
def dataLine (base : Nat) (chunk : List Nat) : List Char :=
  ':' :: (fmtHex 2 chunk.length ++ fmtHex 4 (base &&& 0xFFFF) ++ ['0', '0']
    ++ (chunk.map (fun b => fmtHex 2 b)).flatten
    ++ fmtHex 2 (negMod256 (chunk.length + (base >>> 8) + (base &&& 0xFF) + 0x00 + chunk.sum)))

/-- The extended-linear-address line written by `save_file`:
`:02000004{high:04X}{checksum:02X}` with
`checksum = (-2 - 4 - (high >> 8) - (high & 0xFF)) & 0xFF`. -/
def elaLine (high : Nat) : List Char :=
  ':' :: ("02000004".toList ++ fmtHex 4 high
    ++ fmtHex 2 (negMod256 (2 + 4 + (high >>> 8) + (high &&& 0xFF))))

/-- The end-of-file record written by `save_file`. -/
def eofLine : List Char := ":00000001FF".toList

/-- The chunk loop of `IntelHexFile.save_file`: for each `base`, read a full
32-byte chunk (filling unpopulated addresses with 0xFF), emit an extended
address record whenever `base >> 16` differs from the one currently in
effect, then emit the data record. -/
def save_chunks (d : List (Nat × Nat)) : List Nat → Option Nat → List (List Char)
  | [], _ => []
  | base :: rest, current_ext_addr =>
    let chunk := (List.range 32).map (fun i => (dictGet d (base + i)).getD 0xFF)
    let linear_addr := base >>> 16
    if current_ext_addr = some linear_addr then
      dataLine base chunk :: save_chunks d rest current_ext_addr
    else
      elaLine (linear_addr &&& 0xFFFF) :: dataLine base chunk
        :: save_chunks d rest (some linear_addr)

/-- `IntelHexFile.save_file`, producing the written lines.  On an empty
memory map the source raises IndexError at `addresses[0]` (modelled as
`none`); otherwise it walks `range(addresses[0], addresses[-1] + 1, 32)` and
finishes with the end-of-file record. -/
def save_file (self : IntelHexFile) : Option (List (List Char)) :=
  let addresses := pySorted (dictKeys self.data)
  match addresses with
  | [] => none
  | a0 :: rest =>
    let last := (a0 :: rest).getLast (List.cons_ne_nil a0 rest)
    some (save_chunks self.data (rangeStep a0 (last + 1) 32) none ++ [eofLine])

/-- `Option` fallback: the first value if present, else the second. -/
def orElseO (a b : Option Nat) : Option Nat :=
  match a with
  | some x => some x
  | none => b

/-- Specification-side description of the explicit entry point: the payload
of the last Start-Linear-Address record decoded before the first End-Of-File
record (records after an End-Of-File record, or after a malformed line, are
never decoded). -/
def lastSLA : List (List Char) → Option Nat
  | [] => none
  | l :: rest =>
    let s := pyStrip l
    if s = [] then lastSLA rest
    else
      match parse_line s with
      | .error _ => none
      | .ok r =>
        if r.rtype = 0x01 then none
        else if r.rtype = 0x05 then orElseO (lastSLA rest) (some (intFromBytesBE r.data))
        else lastSLA rest

/-- Specification-side description of the inferred entry point: the absolute
address (extended offset ORed with the 16-bit address field) of the first
Data record decoded before the first End-Of-File record. -/
def firstDataAddr : List (List Char) → Nat → Option Nat
  | [], _ => none
  | l :: rest, ext =>
    let s := pyStrip l
    if s = [] then firstDataAddr rest ext
    else
      match parse_line s with
      | .error _ => none
      | .ok r =>
        if r.rtype = 0x00 then some (ext ||| r.address)
        else if r.rtype = 0x01 then none
        else if r.rtype = 0x04 then firstDataAddr rest (intFromBytesBE r.data <<< 16)
        else firstDataAddr rest ext

/-- `a` lies in one of the 32-byte chunks starting at the given bases. -/
def coveredBy (bases : List Nat) (a : Nat) : Bool :=
  bases.any (fun b => decide (b ≤ a ∧ a < b + 32))

/-- The image obtained by loading a one-byte data record at address 0
followed by an end-of-file record. -/
def c1Img : IntelHexFile := { data := [(0, 0x42)], start_address := some 0 }

/-- The lines `save_file` writes for `c1Img`. -/
def c1SavedLines : List (List Char) := (save_file c1Img).getD []

/-- The image obtained by loading `c1SavedLines` into a fresh object. -/
def c1Reload : IntelHexFile := ((load_file emptyHF c1SavedLines).toOption).getD emptyHF

/-- An image with an explicitly decoded Start-Linear-Address entry point. -/
def c1bImg : IntelHexFile := { data := [(0, 0x42)], start_address := some 0x12345678 }

/-- The image obtained by saving `c1bImg` and loading the result back. -/
def c1bReload : IntelHexFile :=
  ((save_file c1bImg).bind (fun L => (load_file emptyHF L).toOption)).getD emptyHF

end IntelHex

namespace IntelHex

theorem hexDigitVal_hexDigitChar : ∀ n, n < 16 → hexDigitVal (hexDigitChar n) = n := by decide

theorem isHexDigit_hexDigitChar : ∀ n, n < 16 → isHexDigit (hexDigitChar n) = true := by decide

theorem isPySpace_hexDigitChar : ∀ n, n < 16 → isPySpace (hexDigitChar n) = false := by decide

theorem hexVal_foldl (l : List Char) : ∀ a : Nat,
    l.foldl (fun a c => 16 * a + hexDigitVal c) a = a * 16 ^ l.length + hexVal l := by
  induction l with
  | nil => intro a; simp [hexVal]
  | cons c t ih =>
    intro a
    have hv : hexVal (c :: t) = hexDigitVal c * 16 ^ t.length + hexVal t := by
      show (c :: t).foldl (fun a c => 16 * a + hexDigitVal c) 0
        = hexDigitVal c * 16 ^ t.length + hexVal t
      rw [List.foldl_cons]
      rw [ih (16 * 0 + hexDigitVal c)]
      ring
    rw [List.foldl_cons, ih (16 * a + hexDigitVal c), hv, List.length_cons]
    ring

theorem hexVal_append (a b : List Char) :
    hexVal (a ++ b) = hexVal a * 16 ^ b.length + hexVal b := by
  show (a ++ b).foldl (fun a c => 16 * a + hexDigitVal c) 0 = _
  rw [List.foldl_append, hexVal_foldl b]
  rfl

theorem hexVal_replicate_zero (k : Nat) (s : List Char) :
    hexVal (List.replicate k '0' ++ s) = hexVal s := by
  rw [hexVal_append]
  have h : hexVal (List.replicate k '0') = 0 := by
    induction k with
    | zero => rfl
    | succ k ih =>
      show (List.replicate (k + 1) '0').foldl (fun a c => 16 * a + hexDigitVal c) 0 = 0
      rw [List.replicate_succ, List.foldl_cons]
      have hz : hexDigitVal '0' = 0 := by decide
      rw [hz]
      exact ih
  rw [h]
  simp

theorem toHexFuel_all_hex : ∀ f m c, c ∈ toHexFuel f m → isHexDigit c = true := by
  intro f
  induction f with
  | zero => intro m c h; simp [toHexFuel] at h
  | succ f ih =>
    intro m c h
    by_cases hm : m < 16
    · simp [toHexFuel, hm] at h
      subst h
      exact isHexDigit_hexDigitChar m hm
    · simp [toHexFuel, hm] at h
      rcases h with h | h
      · exact ih _ _ h
      · subst h
        exact isHexDigit_hexDigitChar _ (Nat.mod_lt _ (by omega))

theorem toHexFuel_not_space : ∀ f m c, c ∈ toHexFuel f m → isPySpace c = false := by
  intro f
  induction f with
  | zero => intro m c h; simp [toHexFuel] at h
  | succ f ih =>
    intro m c h
    by_cases hm : m < 16
    · simp [toHexFuel, hm] at h
      subst h
      exact isPySpace_hexDigitChar m hm
    · simp [toHexFuel, hm] at h
      rcases h with h | h
      · exact ih _ _ h
      · subst h
        exact isPySpace_hexDigitChar _ (Nat.mod_lt _ (by omega))

theorem hexVal_toHexFuel : ∀ f m, m < 16 ^ f → hexVal (toHexFuel f m) = m := by
  intro f
  induction f with
  | zero => intro m h; interval_cases m; rfl
  | succ f ih =>
    intro m h
    by_cases hm : m < 16
    · simp only [toHexFuel, if_pos hm]
      show 16 * 0 + hexDigitVal (hexDigitChar m) = m
      rw [hexDigitVal_hexDigitChar m hm]
      omega
    · simp only [toHexFuel, if_neg hm]
      rw [hexVal_append]
      have hdiv : m / 16 < 16 ^ f := by
        rw [Nat.div_lt_iff_lt_mul (by omega)]
        calc m < 16 ^ (f + 1) := h
        _ = 16 ^ f * 16 := by ring
      rw [ih _ hdiv]
      have : hexVal [hexDigitChar (m % 16)] = m % 16 := by
        show 16 * 0 + hexDigitVal (hexDigitChar (m % 16)) = m % 16
        rw [hexDigitVal_hexDigitChar _ (Nat.mod_lt _ (by omega))]
        omega
      rw [this]
      simp
      omega

theorem length_toHexFuel_le : ∀ f m, (toHexFuel f m).length ≤ f := by
  intro f
  induction f with
  | zero => intro m; simp [toHexFuel]
  | succ f ih =>
    intro m
    by_cases hm : m < 16
    · simp [toHexFuel, hm]
    · simp only [toHexFuel, if_neg hm, List.length_append, List.length_cons,
        List.length_nil]
      have := ih (m / 16)
      omega

theorem toHexFuel_ne_nil : ∀ f m, 1 ≤ f → toHexFuel f m ≠ [] := by
  intro f m h
  match f, h with
  | f + 1, _ =>
    by_cases hm : m < 16
    · simp [toHexFuel, hm]
    · simp [toHexFuel, hm]

theorem toHexFuel_congr : ∀ f g m, 1 ≤ f → 1 ≤ g → m < 16 ^ f → m < 16 ^ g →
    toHexFuel f m = toHexFuel g m := by
  intro f
  induction f with
  | zero => intro g m h; omega
  | succ f ih =>
    intro g m _ hg hmf hmg
    match g, hg with
    | g + 1, _ =>
      by_cases hm : m < 16
      · simp [toHexFuel, hm]
      · simp only [toHexFuel, if_neg hm]
        have hf1 : 1 ≤ f := by
          by_contra hc
          have : f = 0 := by omega
          subst this
          simp at hmf
          omega
        have hg1 : 1 ≤ g := by
          by_contra hc
          have : g = 0 := by omega
          subst this
          simp at hmg
          omega
        have hdf : m / 16 < 16 ^ f := by
          rw [Nat.div_lt_iff_lt_mul (by omega)]
          calc m < 16 ^ (f + 1) := hmf
          _ = 16 ^ f * 16 := by ring
        have hdg : m / 16 < 16 ^ g := by
          rw [Nat.div_lt_iff_lt_mul (by omega)]
          calc m < 16 ^ (g + 1) := hmg
          _ = 16 ^ g * 16 := by ring
        rw [ih g (m / 16) hf1 hg1 hdf hdg]

theorem self_lt_pow16 (n : Nat) : n < 16 ^ (n + 1) := by
  calc n < 16 ^ n := Nat.lt_pow_self (by omega) n
  _ ≤ 16 ^ (n + 1) := Nat.pow_le_pow_right (by omega) (by omega)

theorem toHex_eq_fuel (n k : Nat) (h1 : 1 ≤ k) (h2 : n < 16 ^ k) :
    toHex n = toHexFuel k n :=
  toHexFuel_congr _ _ _ (by omega) h1 (self_lt_pow16 n) h2

theorem hexVal_toHex (n : Nat) : hexVal (toHex n) = n :=
  hexVal_toHexFuel _ _ (self_lt_pow16 n)

theorem toHex_all_hex (n : Nat) : ∀ c ∈ toHex n, isHexDigit c = true :=
  fun c hc => toHexFuel_all_hex _ _ c hc

theorem toHex_not_space (n : Nat) : ∀ c ∈ toHex n, isPySpace c = false :=
  fun c hc => toHexFuel_not_space _ _ c hc

theorem toHex_ne_nil (n : Nat) : toHex n ≠ [] :=
  toHexFuel_ne_nil _ _ (by omega)

theorem length_toHex_le (n k : Nat) (h1 : 1 ≤ k) (h : n < 16 ^ k) :
    (toHex n).length ≤ k := by
  rw [toHex_eq_fuel n k h1 h]
  exact length_toHexFuel_le k n

theorem toHex_of_lt (n : Nat) (h : n < 16) : toHex n = [hexDigitChar n] := by
  show toHexFuel (n + 1) n = _
  simp [toHexFuel, h]

theorem toHex_of_ge (n : Nat) (h : 16 ≤ n) :
    toHex n = toHex (n / 16) ++ [hexDigitChar (n % 16)] := by
  show toHexFuel (n + 1) n = _
  simp only [toHexFuel, if_neg (by omega : ¬ n < 16)]
  congr 1
  have h1 : 1 ≤ n := by omega
  have hd : n / 16 < 16 ^ n := by
    have : n / 16 < n := Nat.div_lt_self (by omega) (by omega)
    calc n / 16 < n := this
    _ < 16 ^ n := Nat.lt_pow_self (by omega) n
  exact (toHexFuel_congr n (n / 16 + 1) (n / 16) h1 (by omega) hd
    (self_lt_pow16 (n / 16))).symm ▸ rfl

end IntelHex

namespace IntelHex

theorem fmtHex_all_hex (w n : Nat) : ∀ c ∈ fmtHex w n, isHexDigit c = true := by
  intro c hc
  rw [fmtHex, List.mem_append] at hc
  rcases hc with hc | hc
  · have := List.eq_of_mem_replicate hc
    subst this
    decide
  · exact toHex_all_hex n c hc

theorem fmtHex_not_space (w n : Nat) : ∀ c ∈ fmtHex w n, isPySpace c = false := by
  intro c hc
  rw [fmtHex, List.mem_append] at hc
  rcases hc with hc | hc
  · have := List.eq_of_mem_replicate hc
    subst this
    decide
  · exact toHex_not_space n c hc

theorem fmtHex_ne_nil (w n : Nat) : fmtHex w n ≠ [] := by
  rw [fmtHex]
  intro h
  rcases List.append_eq_nil.1 h with ⟨_, h2⟩
  exact toHex_ne_nil n h2

theorem hexVal_fmtHex (w n : Nat) : hexVal (fmtHex w n) = n := by
  rw [fmtHex, hexVal_replicate_zero, hexVal_toHex]

theorem hexToNat?_fmtHex (w n : Nat) : hexToNat? (fmtHex w n) = some n := by
  rw [hexToNat?, if_neg (fmtHex_ne_nil w n), if_pos, hexVal_fmtHex]
  rw [List.all_eq_true]
  exact fmtHex_all_hex w n

theorem length_fmtHex (w n : Nat) (h1 : 1 ≤ w) (h : n < 16 ^ w) :
    (fmtHex w n).length = w := by
  rw [fmtHex, List.length_append, List.length_replicate]
  have := length_toHex_le n w h1 h
  omega

theorem fmtHex_two (b : Nat) (h : b < 256) :
    fmtHex 2 b = [hexDigitChar (b / 16), hexDigitChar (b % 16)] := by
  by_cases hb : b < 16
  · rw [fmtHex, toHex_of_lt b hb]
    have h0 : b / 16 = 0 := Nat.div_eq_of_lt hb
    have h1 : b % 16 = b := Nat.mod_eq_of_lt hb
    rw [h0, h1]
    rfl
  · have hd : b / 16 < 16 := by omega
    rw [fmtHex, toHex_of_ge b (by omega), toHex_of_lt (b / 16) hd]
    rfl

theorem fromhex?_cons2 (c1 c2 : Char) (rest : List Char)
    (h1 : isHexDigit c1 = true) (h2 : isHexDigit c2 = true) :
    fromhex? (c1 :: c2 :: rest)
      = (fromhex? rest).map (fun bs => (16 * hexDigitVal c1 + hexDigitVal c2) :: bs) := by
  simp [fromhex?, h1, h2]

theorem fromhex?_fmtHex_two (b : Nat) (rest : List Char) (h : b < 256) :
    fromhex? (fmtHex 2 b ++ rest) = (fromhex? rest).map (fun bs => b :: bs) := by
  rw [fmtHex_two b h]
  simp only [List.cons_append, List.nil_append]
  rw [fromhex?_cons2 _ _ _ (isHexDigit_hexDigitChar _ (by omega))
    (isHexDigit_hexDigitChar _ (Nat.mod_lt _ (by omega)))]
  have hv : 16 * hexDigitVal (hexDigitChar (b / 16))
      + hexDigitVal (hexDigitChar (b % 16)) = b := by
    rw [hexDigitVal_hexDigitChar _ (by omega), hexDigitVal_hexDigitChar _ (by omega)]
    omega
  rw [hv]

theorem fromhex?_flatten (l : List Nat) (h : ∀ b ∈ l, b < 256) :
    fromhex? ((l.map (fun b => fmtHex 2 b)).flatten) = some l := by
  induction l with
  | nil => rfl
  | cons b t ih =>
    rw [List.map_cons, List.flatten_cons, fromhex?_fmtHex_two b _ (h b (by simp))]
    rw [ih (fun x hx => h x (by simp [hx]))]
    rfl

theorem length_flatten_fmtHex_two (l : List Nat) (h : ∀ b ∈ l, b < 256) :
    ((l.map (fun b => fmtHex 2 b)).flatten).length = 2 * l.length := by
  induction l with
  | nil => rfl
  | cons b t ih =>
    rw [List.map_cons, List.flatten_cons, List.length_append,
      ih (fun x hx => h x (by simp [hx]))]
    rw [length_fmtHex 2 b (by omega) (by have := h b (by simp); omega)]
    simp
    omega

theorem fmtHex_four_split (h : Nat) (hh : h < 65536) :
    fmtHex 4 h = fmtHex 2 (h / 256) ++ fmtHex 2 (h % 256) := by
  by_cases hc : h < 256
  · have h0 : h / 256 = 0 := Nat.div_eq_of_lt hc
    have h1 : h % 256 = h := Nat.mod_eq_of_lt hc
    rw [h0, h1]
    have hL : (toHex h).length ≤ 2 := length_toHex_le h 2 (by omega) (by omega)
    rw [fmtHex, fmtHex, fmtHex]
    have : (4 - (toHex h).length) = 2 + (2 - (toHex h).length) := by omega
    rw [this, List.replicate_add]
    have h00 : toHex 0 = ['0'] := rfl
    rw [h00]
    simp [List.append_assoc]
  · have h16 : 16 ≤ h := by omega
    have h1616 : 16 ≤ h / 16 := by omega
    have hdd : h / 16 / 16 = h / 256 := by
      rw [Nat.div_div_eq_div_mul]
    have hsplit : toHex h = toHex (h / 256)
        ++ [hexDigitChar (h / 16 % 16), hexDigitChar (h % 16)] := by
      rw [toHex_of_ge h h16, toHex_of_ge (h / 16) h1616, hdd]
      simp [List.append_assoc]
    have hL' : (toHex (h / 256)).length ≤ 2 :=
      length_toHex_le (h / 256) 2 (by omega) (by omega)
    have hmod : fmtHex 2 (h % 256)
        = [hexDigitChar (h / 16 % 16), hexDigitChar (h % 16)] := by
      rw [fmtHex_two (h % 256) (Nat.mod_lt _ (by omega))]
      have e1 : h % 256 / 16 = h / 16 % 16 := by
        rw [show (256 : Nat) = 16 * 16 from rfl, Nat.mod_mul_right_div_self]
      have e2 : h % 256 % 16 = h % 16 := Nat.mod_mod_of_dvd h (by norm_num)
      rw [e1, e2]
    rw [fmtHex, fmtHex, hsplit, hmod]
    rw [List.length_append]
    have harith : 4 - ((toHex (h / 256)).length
        + ([hexDigitChar (h / 16 % 16), hexDigitChar (h % 16)] : List Char).length)
        = 2 - (toHex (h / 256)).length := by
      simp only [List.length_cons, List.length_nil]
      omega
    rw [harith]
    simp [List.append_assoc]

end IntelHex

namespace IntelHex

theorem and_FFFF (x : Nat) : x &&& 0xFFFF = x % 65536 := by
  have h := Nat.and_pow_two_sub_one_eq_mod x 16
  norm_num at h
  exact h

theorem and_FF (x : Nat) : x &&& 0xFF = x % 256 := by
  have h := Nat.and_pow_two_sub_one_eq_mod x 8
  norm_num at h
  exact h

theorem shr8 (x : Nat) : x >>> 8 = x / 256 := by
  rw [Nat.shiftRight_eq_div_pow]

theorem shr16 (x : Nat) : x >>> 16 = x / 65536 := by
  rw [Nat.shiftRight_eq_div_pow]

theorem shl16 (x : Nat) : x <<< 16 = x * 65536 := by
  rw [Nat.shiftLeft_eq]

theorem or_shl16_add (x a : Nat) (h : a < 65536) : (x <<< 16) ||| a = x * 65536 + a := by
  rw [shl16]
  have h2 : a < 2 ^ 16 := by
    have e : (2 : Nat) ^ 16 = 65536 := by norm_num
    omega
  calc x * 65536 ||| a = 2 ^ 16 * x ||| a := by norm_num [Nat.mul_comm]
  _ = 2 ^ 16 * x + a := (Nat.mul_add_lt_is_or h2 x).symm
  _ = x * 65536 + a := by ring

theorem base_reconstruct (base : Nat) (h : base < 4294967296) :
    ((base >>> 16) &&& 0xFFFF) <<< 16 ||| (base &&& 0xFFFF) = base := by
  rw [and_FFFF, and_FFFF, shr16]
  have h1 : base / 65536 < 65536 := by omega
  rw [Nat.mod_eq_of_lt h1, or_shl16_add _ _ (Nat.mod_lt _ (by omega))]
  omega

theorem negMod256_congr (a b : Nat) (h : a % 256 = b % 256) :
    negMod256 a = negMod256 b := by
  rw [negMod256, negMod256, h]

theorem negMod256_lt (t : Nat) : negMod256 t < 256 := by
  rw [negMod256]
  omega

theorem checksum_addr_congr (L S base : Nat) :
    negMod256 (L + ((base &&& 0xFFFF) >>> 8) + ((base &&& 0xFFFF) &&& 0xFF) + 0 + S)
      = negMod256 (L + (base >>> 8) + (base &&& 0xFF) + 0x00 + S) := by
  apply negMod256_congr
  rw [and_FFFF, and_FF, and_FF, shr8, shr8]
  omega

theorem pow16_two : (16 : Nat) ^ 2 = 256 := by norm_num

theorem pow16_four : (16 : Nat) ^ 4 = 65536 := by norm_num

theorem take_len_append (A B : List Char) (n : Nat) (h : A.length = n) :
    (A ++ B).take n = A := by
  subst h
  simp

theorem drop_len_append (A B : List Char) (n : Nat) (h : A.length = n) :
    (A ++ B).drop n = B := by
  subst h
  simp

theorem dropWhile_eq_self_of (p : Char → Bool) (l : List Char)
    (h : ∀ c ∈ l, p c = false) : l.dropWhile p = l := by
  cases l with
  | nil => rfl
  | cons c t =>
    rw [List.dropWhile_cons, h c (by simp)]
    simp

theorem pyStrip_eq_self (l : List Char) (h : ∀ c ∈ l, isPySpace c = false) :
    pyStrip l = l := by
  rw [pyStrip, dropWhile_eq_self_of _ _ h, dropWhile_eq_self_of, List.reverse_reverse]
  intro c hc
  exact h c (by simpa using hc)

theorem parse_line_build (bc addr rt chk : Nat) (ds : List Nat)
    (hbc : bc < 256) (haddr : addr < 65536) (hrt : rt < 256)
    (hds : ∀ b ∈ ds, b < 256) (hlen : ds.length = bc)
    (hchk : chk = negMod256 (bc + (addr >>> 8) + (addr &&& 0xFF) + rt + ds.sum)) :
    parse_line (':' :: (fmtHex 2 bc ++ fmtHex 4 addr ++ fmtHex 2 rt
      ++ (ds.map (fun b => fmtHex 2 b)).flatten ++ fmtHex 2 chk))
      = .ok ⟨rt, addr, ds⟩ := by
  set D := (ds.map (fun b => fmtHex 2 b)).flatten with hD
  set rest := fmtHex 2 bc ++ fmtHex 4 addr ++ fmtHex 2 rt ++ D ++ fmtHex 2 chk with hrest
  have l2 : (fmtHex 2 bc).length = 2 := length_fmtHex 2 bc (by omega) (by rw [pow16_two]; omega)
  have l4 : (fmtHex 4 addr).length = 4 := length_fmtHex 4 addr (by omega) (by rw [pow16_four]; omega)
  have lt2 : (fmtHex 2 rt).length = 2 := length_fmtHex 2 rt (by omega) (by rw [pow16_two]; omega)
  have lD : D.length = 2 * bc := by
    rw [hD, length_flatten_fmtHex_two ds hds, hlen]
  have lC : (fmtHex 2 chk).length = 2 := by
    apply length_fmtHex 2 chk (by omega)
    rw [pow16_two, hchk]
    exact negMod256_lt _
  have s1 : pySlice rest 0 2 = fmtHex 2 bc := by
    rw [hrest, pySlice]
    simp only [List.drop_zero, Nat.sub_zero, List.append_assoc]
    exact take_len_append _ _ 2 l2
  have s2 : pySlice rest 2 6 = fmtHex 4 addr := by
    rw [hrest, pySlice]
    simp only [List.append_assoc]
    rw [drop_len_append _ _ 2 l2]
    exact take_len_append _ _ _ l4
  have s3 : pySlice rest 6 8 = fmtHex 2 rt := by
    rw [hrest, pySlice]
    have hsplit : fmtHex 2 bc ++ (fmtHex 4 addr ++ (fmtHex 2 rt ++ (D ++ fmtHex 2 chk)))
        = (fmtHex 2 bc ++ fmtHex 4 addr) ++ (fmtHex 2 rt ++ (D ++ fmtHex 2 chk)) := by
      simp [List.append_assoc]
    simp only [List.append_assoc]
    rw [hsplit, drop_len_append _ _ 6 (by rw [List.length_append, l2, l4])]
    exact take_len_append _ _ _ lt2
  have s4 : pySlice rest 8 (8 + bc * 2) = D := by
    rw [hrest, pySlice]
    have hsplit : fmtHex 2 bc ++ (fmtHex 4 addr ++ (fmtHex 2 rt ++ (D ++ fmtHex 2 chk)))
        = (fmtHex 2 bc ++ fmtHex 4 addr ++ fmtHex 2 rt) ++ (D ++ fmtHex 2 chk) := by
      simp [List.append_assoc]
    simp only [List.append_assoc]
    rw [hsplit, drop_len_append _ _ 8
      (by rw [List.length_append, List.length_append, l2, l4, lt2])]
    have : 8 + bc * 2 - 8 = bc * 2 := by omega
    rw [this]
    exact take_len_append _ _ _ (by omega)
  have s5 : pySlice rest (8 + bc * 2) (10 + bc * 2) = fmtHex 2 chk := by
    rw [hrest, pySlice]
    have hsplit : fmtHex 2 bc ++ (fmtHex 4 addr ++ (fmtHex 2 rt ++ (D ++ fmtHex 2 chk)))
        = (fmtHex 2 bc ++ fmtHex 4 addr ++ fmtHex 2 rt ++ D) ++ fmtHex 2 chk := by
      simp [List.append_assoc]
    simp only [List.append_assoc]
    rw [hsplit, drop_len_append _ _ (8 + bc * 2)
      (by simp only [List.length_append]; rw [l2, l4, lt2, lD]; omega)]
    have : 10 + bc * 2 - (8 + bc * 2) = 2 := by omega
    rw [this]
    exact List.take_of_length_le (by omega)
  show parse_line (':' :: rest) = _
  simp only [parse_line, s1, s2, s3, s4, s5, hexToNat?_fmtHex, hD,
    fromhex?_flatten ds hds]
  rw [if_neg (by rw [hchk]; exact fun hne => hne rfl)]

end IntelHex

namespace IntelHex

theorem parse_dataLine (base : Nat) (chunk : List Nat) (hlen : chunk.length < 256)
    (hb : ∀ b ∈ chunk, b < 256) :
    parse_line (dataLine base chunk) = .ok ⟨0, base &&& 0xFFFF, chunk⟩ := by
  have hshape : dataLine base chunk = ':' :: (fmtHex 2 chunk.length
      ++ fmtHex 4 (base &&& 0xFFFF) ++ fmtHex 2 0
      ++ (chunk.map (fun b => fmtHex 2 b)).flatten
      ++ fmtHex 2 (negMod256 (chunk.length + ((base &&& 0xFFFF) >>> 8)
        + ((base &&& 0xFFFF) &&& 0xFF) + 0 + chunk.sum))) := by
    simp only [dataLine]
    rw [checksum_addr_congr]
    rfl
  rw [hshape]
  exact parse_line_build chunk.length (base &&& 0xFFFF) 0 _ chunk hlen
    (by rw [and_FFFF]; exact Nat.mod_lt _ (by omega)) (by omega) hb rfl rfl

theorem parse_elaLine (high : Nat) (hh : high < 65536) :
    parse_line (elaLine high) = .ok ⟨4, 0, [high / 256, high % 256]⟩ := by
  have hdata : fmtHex 4 high
      = (([high / 256, high % 256]).map (fun b => fmtHex 2 b)).flatten := by
    rw [fmtHex_four_split high hh]
    simp
  have hck : negMod256 (2 + 4 + (high >>> 8) + (high &&& 0xFF))
      = negMod256 (2 + ((0 : Nat) >>> 8) + ((0 : Nat) &&& 0xFF) + 4
        + ([high / 256, high % 256]).sum) := by
    apply negMod256_congr
    rw [shr8, shr8, and_FF, and_FF]
    simp only [List.sum_cons, List.sum_nil]
    omega
  have hshape : elaLine high = ':' :: (fmtHex 2 2 ++ fmtHex 4 0 ++ fmtHex 2 4
      ++ (([high / 256, high % 256]).map (fun b => fmtHex 2 b)).flatten
      ++ fmtHex 2 (negMod256 (2 + ((0 : Nat) >>> 8) + ((0 : Nat) &&& 0xFF) + 4
        + ([high / 256, high % 256]).sum))) := by
    simp only [elaLine]
    rw [← hdata, ← hck]
    rfl
  rw [hshape]
  exact parse_line_build 2 0 4 _ ([high / 256, high % 256]) (by omega) (by omega)
    (by omega)
    (by
      intro b hb
      simp only [List.mem_cons, List.not_mem_nil, or_false] at hb
      rcases hb with hb | hb <;> subst hb <;> omega)
    rfl rfl

theorem parse_eofLine : parse_line eofLine = .ok ⟨1, 0, []⟩ := rfl

theorem dataLine_not_space (base : Nat) (chunk : List Nat) :
    ∀ c ∈ dataLine base chunk, isPySpace c = false := by
  intro c hc
  simp only [dataLine, List.mem_cons, List.mem_append, List.mem_flatten,
    List.mem_map, List.not_mem_nil, or_false] at hc
  rcases hc with hc | ⟨⟨⟨⟨hc | hc⟩ | hc | hc⟩ | ⟨l, ⟨b, _, hbl⟩, hcl⟩⟩ | hc⟩
  · subst hc; decide
  · exact fmtHex_not_space _ _ c hc
  · exact fmtHex_not_space _ _ c hc
  · subst hc; decide
  · subst hc; decide
  · subst hbl; exact fmtHex_not_space _ _ c hcl
  · exact fmtHex_not_space _ _ c hc

theorem elaLine_not_space (high : Nat) :
    ∀ c ∈ elaLine high, isPySpace c = false := by
  intro c hc
  simp only [elaLine, List.mem_cons, List.mem_append] at hc
  rcases hc with hc | ⟨hc | hc⟩ | hc
  · subst hc; decide
  · have : ∀ c ∈ "02000004".toList, isPySpace c = false := by decide
    exact this c hc
  · exact fmtHex_not_space _ _ c hc
  · exact fmtHex_not_space _ _ c hc

theorem pyStrip_dataLine (base : Nat) (chunk : List Nat) :
    pyStrip (dataLine base chunk) = dataLine base chunk :=
  pyStrip_eq_self _ (dataLine_not_space base chunk)

theorem pyStrip_elaLine (high : Nat) : pyStrip (elaLine high) = elaLine high :=
  pyStrip_eq_self _ (elaLine_not_space high)

theorem pyStrip_eofLine : pyStrip eofLine = eofLine := rfl

theorem parse_line_ne_nil (l : List Char) (r : ParsedRecord)
    (h : parse_line l = .ok r) : l ≠ [] := by
  intro hl
  subst hl
  exact Except.noConfusion h

theorem loadLoop_step_blank (l : List Char) (rest : List (List Char))
    (st : IntelHexFile) (ext : Nat) (fda : Option Nat) (h : pyStrip l = []) :
    loadLoop (l :: rest) st ext fda = loadLoop rest st ext fda := by
  simp only [loadLoop, h, if_pos]

theorem loadLoop_step_err (l : List Char) (rest : List (List Char))
    (st : IntelHexFile) (ext : Nat) (fda : Option Nat) (e : ParseError)
    (hne : pyStrip l ≠ []) (h : parse_line (pyStrip l) = .error e) :
    loadLoop (l :: rest) st ext fda = .error e := by
  simp only [loadLoop, if_neg hne, h]

theorem loadLoop_step_data (l : List Char) (rest : List (List Char))
    (st : IntelHexFile) (ext : Nat) (fda : Option Nat) (a : Nat) (ds : List Nat)
    (h : parse_line (pyStrip l) = .ok ⟨0, a, ds⟩) :
    loadLoop (l :: rest) st ext fda
      = loadLoop rest { st with data := writeBytes st.data (ext ||| a) ds } ext
          (match fda with | none => some (ext ||| a) | some x => some x) := by
  have hne : pyStrip l ≠ [] := parse_line_ne_nil _ _ h
  simp only [loadLoop, if_neg hne, h]
  norm_num

theorem loadLoop_step_eof (l : List Char) (rest : List (List Char))
    (st : IntelHexFile) (ext : Nat) (fda : Option Nat) (a : Nat) (ds : List Nat)
    (h : parse_line (pyStrip l) = .ok ⟨1, a, ds⟩) :
    loadLoop (l :: rest) st ext fda = .ok (st, fda) := by
  have hne : pyStrip l ≠ [] := parse_line_ne_nil _ _ h
  simp only [loadLoop, if_neg hne, h]
  norm_num

theorem loadLoop_step_ela (l : List Char) (rest : List (List Char))
    (st : IntelHexFile) (ext : Nat) (fda : Option Nat) (a : Nat) (ds : List Nat)
    (h : parse_line (pyStrip l) = .ok ⟨4, a, ds⟩) :
    loadLoop (l :: rest) st ext fda
      = loadLoop rest st (intFromBytesBE ds <<< 16) fda := by
  have hne : pyStrip l ≠ [] := parse_line_ne_nil _ _ h
  simp only [loadLoop, if_neg hne, h]
  norm_num

theorem loadLoop_step_sla (l : List Char) (rest : List (List Char))
    (st : IntelHexFile) (ext : Nat) (fda : Option Nat) (a : Nat) (ds : List Nat)
    (h : parse_line (pyStrip l) = .ok ⟨5, a, ds⟩) :
    loadLoop (l :: rest) st ext fda
      = loadLoop rest { st with start_address := some (intFromBytesBE ds) } ext fda := by
  have hne : pyStrip l ≠ [] := parse_line_ne_nil _ _ h
  simp only [loadLoop, if_neg hne, h]
  norm_num

theorem loadLoop_step_other (l : List Char) (rest : List (List Char))
    (st : IntelHexFile) (ext : Nat) (fda : Option Nat) (rt a : Nat) (ds : List Nat)
    (h : parse_line (pyStrip l) = .ok ⟨rt, a, ds⟩)
    (h0 : rt ≠ 0) (h1 : rt ≠ 1) (h4 : rt ≠ 4) (h5 : rt ≠ 5) :
    loadLoop (l :: rest) st ext fda = loadLoop rest st ext fda := by
  have hne : pyStrip l ≠ [] := parse_line_ne_nil _ _ h
  simp only [loadLoop, if_neg hne, h, if_neg h0, if_neg h1, if_neg h4, if_neg h5]

end IntelHex

namespace IntelHex

theorem orElseO_none (a : Option Nat) : orElseO a none = a := by
  cases a <;> rfl

theorem orElseO_some_left (a q : Option Nat) (p : Nat) :
    orElseO (orElseO a (some p)) q = orElseO a (some p) := by
  cases a <;> rfl

theorem orElseO_match (a : Option Nat) (p : Nat) :
    (match a with | none => some p | some x => some x) = orElseO a (some p) := by
  cases a <;> rfl

theorem dictGet_cons (p : Nat × Nat) (t : List (Nat × Nat)) (a : Nat) :
    dictGet (p :: t) a = if p.1 = a then some p.2 else dictGet t a := by
  by_cases h : p.1 = a
  · simp [dictGet, List.find?_cons, h]
  · have hb : (p.1 == a) = false := by simp [h]
    simp [dictGet, List.find?_cons, hb, h]

theorem dictGet_dictInsert (d : List (Nat × Nat)) (k v a : Nat) :
    dictGet (dictInsert d k v) a = if a = k then some v else dictGet d a := by
  induction d with
  | nil =>
    show dictGet [(k, v)] a = if a = k then some v else dictGet [] a
    rw [dictGet_cons]
    by_cases h : a = k
    · rw [if_pos h.symm, if_pos h]
    · rw [if_neg (fun he => h he.symm), if_neg h]
  | cons p t ih =>
    by_cases hp : p.1 = k
    · rw [dictInsert, if_pos hp, dictGet_cons, dictGet_cons]
      by_cases h : a = k
      · rw [if_pos h.symm, if_pos h]
      · rw [if_neg (fun he => h he.symm), if_neg h,
          if_neg (fun he => h (by rw [← he, hp]))]
    · rw [dictInsert, if_neg hp, dictGet_cons, dictGet_cons]
      by_cases hpa : p.1 = a
      · rw [if_pos hpa, if_pos hpa,
          if_neg (fun he => hp (by rw [hpa, he]))]
      · rw [if_neg hpa, if_neg hpa, ih]

theorem dictGet_writeBytes (bs : List Nat) : ∀ (d : List (Nat × Nat)) (base a : Nat),
    dictGet (writeBytes d base bs) a
      = if base ≤ a ∧ a < base + bs.length then some (bs.getD (a - base) 0)
        else dictGet d a := by
  induction bs with
  | nil =>
    intro d base a
    simp only [writeBytes, List.length_nil]
    rw [if_neg (by omega)]
  | cons b t ih =>
    intro d base a
    simp only [writeBytes, List.length_cons]
    rw [ih]
    by_cases h1 : base + 1 ≤ a ∧ a < base + 1 + t.length
    · rw [if_pos h1, if_pos (by omega)]
      have he : a - base = (a - (base + 1)) + 1 := by omega
      rw [he]
      rfl
    · rw [if_neg h1, dictGet_dictInsert]
      by_cases h2 : a = base
      · rw [if_pos h2, if_pos (by omega)]
        subst h2
        simp
      · rw [if_neg h2, if_neg (by omega)]

theorem dictGet_mem (d : List (Nat × Nat)) (a v : Nat) (h : dictGet d a = some v) :
    (a, v) ∈ d := by
  rw [dictGet] at h
  cases hf : d.find? (fun p => p.1 == a) with
  | none => rw [hf] at h; simp at h
  | some p =>
    rw [hf] at h
    have hm := List.mem_of_find?_eq_some hf
    have hp := List.find?_some hf
    simp only [beq_iff_eq] at hp
    have hv : p.2 = v := by simpa using h
    have : p = (a, v) := by
      cases p
      simp only at hp hv
      rw [hp, hv]
    rw [← this]
    exact hm

theorem mem_dictKeys_of_get (d : List (Nat × Nat)) (a v : Nat)
    (h : dictGet d a = some v) : a ∈ dictKeys d :=
  List.mem_map.2 ⟨(a, v), dictGet_mem d a v h, rfl⟩

theorem dictGet_eq_none (d : List (Nat × Nat)) (a : Nat) (h : a ∉ dictKeys d) :
    dictGet d a = none := by
  cases hg : dictGet d a with
  | none => rfl
  | some v => exact absurd (mem_dictKeys_of_get d a v hg) h

theorem lastSLA_blank (l : List Char) (t : List (List Char)) (h : pyStrip l = []) :
    lastSLA (l :: t) = lastSLA t := by
  simp only [lastSLA, h, if_pos]

theorem lastSLA_step (l : List Char) (t : List (List Char)) (rt ra : Nat)
    (rds : List Nat) (h : parse_line (pyStrip l) = .ok ⟨rt, ra, rds⟩) :
    lastSLA (l :: t) = if rt = 1 then none
      else if rt = 5 then orElseO (lastSLA t) (some (intFromBytesBE rds))
      else lastSLA t := by
  have hne : pyStrip l ≠ [] := parse_line_ne_nil _ _ h
  simp only [lastSLA, if_neg hne, h]

theorem lastSLA_err (l : List Char) (t : List (List Char)) (e : ParseError)
    (hne : pyStrip l ≠ []) (h : parse_line (pyStrip l) = .error e) :
    lastSLA (l :: t) = none := by
  simp only [lastSLA, if_neg hne, h]

theorem firstDataAddr_blank (l : List Char) (t : List (List Char)) (ext : Nat)
    (h : pyStrip l = []) : firstDataAddr (l :: t) ext = firstDataAddr t ext := by
  simp only [firstDataAddr, h, if_pos]

theorem firstDataAddr_step (l : List Char) (t : List (List Char)) (ext rt ra : Nat)
    (rds : List Nat) (h : parse_line (pyStrip l) = .ok ⟨rt, ra, rds⟩) :
    firstDataAddr (l :: t) ext = if rt = 0 then some (ext ||| ra)
      else if rt = 1 then none
      else if rt = 4 then firstDataAddr t (intFromBytesBE rds <<< 16)
      else firstDataAddr t ext := by
  have hne : pyStrip l ≠ [] := parse_line_ne_nil _ _ h
  simp only [firstDataAddr, if_neg hne, h]

theorem loadLoop_entry (lines : List (List Char)) :
    ∀ (st : IntelHexFile) (ext : Nat) (fda : Option Nat) (st' : IntelHexFile)
      (fda' : Option Nat),
      loadLoop lines st ext fda = .ok (st', fda') →
      st'.start_address = orElseO (lastSLA lines) st.start_address
        ∧ fda' = orElseO fda (firstDataAddr lines ext) := by
  induction lines with
  | nil =>
    intro st ext fda st' fda' h
    simp only [loadLoop, Except.ok.injEq, Prod.mk.injEq] at h
    obtain ⟨h1, h2⟩ := h
    subst h1
    subst h2
    exact ⟨rfl, (orElseO_none fda).symm⟩
  | cons x t ih =>
    intro st ext fda st' fda' h
    by_cases hb : pyStrip x = []
    · rw [loadLoop_step_blank _ _ _ _ _ hb] at h
      obtain ⟨h1, h2⟩ := ih st ext fda st' fda' h
      rw [lastSLA_blank _ _ hb, firstDataAddr_blank _ _ _ hb]
      exact ⟨h1, h2⟩
    · cases hp : parse_line (pyStrip x) with
      | error e =>
        rw [loadLoop_step_err _ _ _ _ _ e hb hp] at h
        exact absurd h (by simp)
      | ok r =>
        rcases r with ⟨rt, ra, rds⟩
        rw [lastSLA_step _ _ _ _ _ hp, firstDataAddr_step _ _ _ _ _ _ hp]
        by_cases h0 : rt = 0
        · subst h0
          rw [loadLoop_step_data _ _ _ _ _ _ _ hp] at h
          obtain ⟨h1, h2⟩ := ih _ _ _ _ _ h
          norm_num
          constructor
          · exact h1
          · rw [h2, orElseO_match, orElseO_some_left]
        · by_cases h1 : rt = 1
          · subst h1
            rw [loadLoop_step_eof _ _ _ _ _ _ _ hp] at h
            simp only [Except.ok.injEq, Prod.mk.injEq] at h
            obtain ⟨hs, hf⟩ := h
            subst hs
            subst hf
            norm_num
            exact ⟨rfl, (orElseO_none fda).symm⟩
          · by_cases h4 : rt = 4
            · subst h4
              rw [loadLoop_step_ela _ _ _ _ _ _ _ hp] at h
              obtain ⟨hh1, hh2⟩ := ih _ _ _ _ _ h
              norm_num
              exact ⟨hh1, hh2⟩
            · by_cases h5 : rt = 5
              · subst h5
                rw [loadLoop_step_sla _ _ _ _ _ _ _ hp] at h
                obtain ⟨hh1, hh2⟩ := ih _ _ _ _ _ h
                norm_num
                constructor
                · rw [hh1]
                  simp only []
                  rw [orElseO_some_left]
                · exact hh2
              · rw [loadLoop_step_other _ _ _ _ _ _ _ _ hp h0 h1 h4 h5] at h
                obtain ⟨hh1, hh2⟩ := ih _ _ _ _ _ h
                simp only [if_neg h0, if_neg h1, if_neg h4, if_neg h5]
                exact ⟨hh1, hh2⟩

theorem loadLoop_stop_after_eof (l : List Char) (a : Nat) (ds : List Nat)
    (h : parse_line (pyStrip l) = .ok ⟨1, a, ds⟩) :
    ∀ (pre : List (List Char)) (st : IntelHexFile) (ext : Nat) (fda : Option Nat)
      (rest rest' : List (List Char)),
      loadLoop (pre ++ l :: rest) st ext fda = loadLoop (pre ++ l :: rest') st ext fda := by
  intro pre
  induction pre with
  | nil =>
    intro st ext fda rest rest'
    rw [List.nil_append, List.nil_append, loadLoop_step_eof l rest st ext fda a ds h,
      loadLoop_step_eof l rest' st ext fda a ds h]
  | cons x t ih =>
    intro st ext fda rest rest'
    rw [List.cons_append, List.cons_append]
    by_cases hb : pyStrip x = []
    · rw [loadLoop_step_blank _ _ _ _ _ hb, loadLoop_step_blank _ _ _ _ _ hb]
      exact ih st ext fda rest rest'
    · cases hp : parse_line (pyStrip x) with
      | error e =>
        rw [loadLoop_step_err _ _ _ _ _ e hb hp, loadLoop_step_err _ _ _ _ _ e hb hp]
      | ok r =>
        rcases r with ⟨rt, ra, rds⟩
        by_cases h0 : rt = 0
        · subst h0
          rw [loadLoop_step_data _ _ _ _ _ _ _ hp, loadLoop_step_data _ _ _ _ _ _ _ hp]
          exact ih _ _ _ rest rest'
        · by_cases h1 : rt = 1
          · subst h1
            rw [loadLoop_step_eof _ _ _ _ _ _ _ hp, loadLoop_step_eof _ _ _ _ _ _ _ hp]
          · by_cases h4 : rt = 4
            · subst h4
              rw [loadLoop_step_ela _ _ _ _ _ _ _ hp, loadLoop_step_ela _ _ _ _ _ _ _ hp]
              exact ih _ _ _ rest rest'
            · by_cases h5 : rt = 5
              · subst h5
                rw [loadLoop_step_sla _ _ _ _ _ _ _ hp, loadLoop_step_sla _ _ _ _ _ _ _ hp]
                exact ih _ _ _ rest rest'
              · rw [loadLoop_step_other _ _ _ _ _ _ _ _ hp h0 h1 h4 h5,
                  loadLoop_step_other _ _ _ _ _ _ _ _ hp h0 h1 h4 h5]
                exact ih _ _ _ rest rest'

end IntelHex

namespace IntelHex

theorem chunkByte_lt (d : List (Nat × Nat)) (hd : ∀ p ∈ d, p.2 < 256) (x : Nat) :
    (dictGet d x).getD 0xFF < 256 := by
  cases hg : dictGet d x with
  | none => simp
  | some v =>
    simp only [Option.getD_some]
    exact hd (x, v) (dictGet_mem d x v hg)

theorem intFromBytesBE_two (x y : Nat) : intFromBytesBE [x, y] = 256 * x + y := by
  simp [intFromBytesBE]

theorem coveredBy_cons (base : Nat) (bs : List Nat) (a : Nat) :
    coveredBy (base :: bs) a
      = (decide (base ≤ a ∧ a < base + 32) || coveredBy bs a) := by
  simp [coveredBy]

theorem chunk_getD (d : List (Nat × Nat)) (base i : Nat) (hi : i < 32) :
    (((List.range 32).map (fun i => (dictGet d (base + i)).getD 0xFF)).getD i 0)
      = (dictGet d (base + i)).getD 0xFF := by
  rw [List.getD_eq_getElem?_getD]
  simp [List.getElem?_range, hi]

set_option maxHeartbeats 1000000 in
theorem load_save_chunks (d : List (Nat × Nat)) (hd : ∀ p ∈ d, p.2 < 256) :
    ∀ (bases : List Nat), (∀ b ∈ bases, b < 4294967296) →
    ∀ (cur : Option Nat) (ext : Nat),
      (∀ la, cur = some la → ext = (la &&& 0xFFFF) <<< 16) →
    ∀ (st : IntelHexFile) (fda : Option Nat),
    ∃ D fda',
      loadLoop (save_chunks d bases cur ++ [eofLine]) st ext fda
        = .ok ({ data := D, start_address := st.start_address }, fda')
      ∧ ∀ a, dictGet D a
          = if coveredBy bases a then some ((dictGet d a).getD 0xFF)
            else dictGet st.data a := by
  intro bases
  induction bases with
  | nil =>
    intro _ cur ext _ st fda
    refine ⟨st.data, fda, ?_, ?_⟩
    · rw [show save_chunks d [] cur = [] from rfl, List.nil_append,
        loadLoop_step_eof eofLine [] st ext fda 0 []
          (by rw [pyStrip_eofLine]; exact parse_eofLine)]
    · intro a
      rw [if_neg (by simp [coveredBy])]
  | cons base bs ih =>
    intro hb cur ext hcur st fda
    have hbase : base < 4294967296 := hb base (by simp)
    have hbs : ∀ b ∈ bs, b < 4294967296 := fun b h => hb b (by simp [h])
    set chunk := (List.range 32).map (fun i => (dictGet d (base + i)).getD 0xFF) with hchunk
    have hclen : chunk.length = 32 := by rw [hchunk]; simp
    clear_value chunk
    have hcb : ∀ b ∈ chunk, b < 256 := by
      intro b hbc
      rw [hchunk] at hbc
      rcases List.mem_map.1 hbc with ⟨i, _, rfl⟩
      exact chunkByte_lt d hd _
    have hdata : ∀ (st1 : IntelHexFile) (fda1 : Option Nat) (tail : List (List Char)),
        loadLoop (dataLine base chunk :: tail) st1 (((base >>> 16) &&& 0xFFFF) <<< 16) fda1
          = loadLoop tail { st1 with data := writeBytes st1.data base chunk }
              (((base >>> 16) &&& 0xFFFF) <<< 16)
              (match fda1 with | none => some base | some x => some x) := by
      intro st1 fda1 tail
      have hp : parse_line (pyStrip (dataLine base chunk))
          = .ok ⟨0, base &&& 0xFFFF, chunk⟩ := by
        rw [pyStrip_dataLine]
        exact parse_dataLine base chunk (by omega) hcb
      rw [loadLoop_step_data _ _ _ _ _ _ _ hp, base_reconstruct base hbase]
    have hcombine : ∀ (D : List (Nat × Nat)),
        (∀ a, dictGet D a = if coveredBy bs a then some ((dictGet d a).getD 0xFF)
          else dictGet (writeBytes st.data base chunk) a) →
        (∀ a, dictGet D a = if coveredBy (base :: bs) a
          then some ((dictGet d a).getD 0xFF) else dictGet st.data a) := by
      intro D hchar a
      rw [hchar a, dictGet_writeBytes, hclen]
      by_cases hcov : coveredBy bs a
      · rw [if_pos hcov, if_pos (by rw [coveredBy_cons, hcov]; simp)]
      · rw [if_neg hcov]
        by_cases hrange : base ≤ a ∧ a < base + 32
        · rw [if_pos hrange, if_pos (by rw [coveredBy_cons]; simp [hrange])]
          rw [hchunk, chunk_getD d base (a - base) (by omega)]
          have he : base + (a - base) = a := by omega
          rw [he]
        · rw [if_neg hrange, if_neg (by
            rw [coveredBy_cons]
            simp only [Bool.or_eq_true, decide_eq_true_eq]
            push_neg
            refine ⟨fun hle => ?_, fun hcv => absurd hcv hcov⟩
            omega)]
    by_cases hif : cur = some (base >>> 16)
    · have hexteq : ext = ((base >>> 16) &&& 0xFFFF) <<< 16 := hcur _ hif
      rw [show save_chunks d (base :: bs) cur
          = dataLine base chunk :: save_chunks d bs cur from by
        simp only [save_chunks, if_pos hif, hchunk]]
      rw [List.cons_append, hexteq, hdata st fda _]
      obtain ⟨D, fda', hrun, hchar⟩ := ih hbs cur (((base >>> 16) &&& 0xFFFF) <<< 16)
        (fun la hla => by
          rw [hif] at hla
          have hlaeq : la = base >>> 16 := (Option.some.inj hla).symm
          rw [hlaeq])
        { st with data := writeBytes st.data base chunk }
        (match fda with | none => some base | some x => some x)
      exact ⟨D, fda', hrun, hcombine D hchar⟩
    · rw [show save_chunks d (base :: bs) cur
          = elaLine ((base >>> 16) &&& 0xFFFF) :: dataLine base chunk
            :: save_chunks d bs (some (base >>> 16)) from by
        simp only [save_chunks, if_neg hif, hchunk]]
      have hhigh : (base >>> 16) &&& 0xFFFF < 65536 := by
        rw [and_FFFF]
        exact Nat.mod_lt _ (by omega)
      have hpela : parse_line (pyStrip (elaLine ((base >>> 16) &&& 0xFFFF)))
          = .ok ⟨4, 0, [((base >>> 16) &&& 0xFFFF) / 256, ((base >>> 16) &&& 0xFFFF) % 256]⟩ := by
        rw [pyStrip_elaLine]
        exact parse_elaLine _ hhigh
      rw [List.cons_append, List.cons_append, loadLoop_step_ela _ _ _ _ _ _ _ hpela,
        intFromBytesBE_two]
      have hrecomb : 256 * (((base >>> 16) &&& 0xFFFF) / 256)
          + ((base >>> 16) &&& 0xFFFF) % 256 = (base >>> 16) &&& 0xFFFF := by
        omega
      rw [hrecomb, hdata st fda _]
      obtain ⟨D, fda', hrun, hchar⟩ := ih hbs (some (base >>> 16))
        (((base >>> 16) &&& 0xFFFF) <<< 16)
        (fun la hla => by
          have hlaeq : la = base >>> 16 := (Option.some.inj hla).symm
          rw [hlaeq])
        { st with data := writeBytes st.data base chunk }
        (match fda with | none => some base | some x => some x)
      exact ⟨D, fda', hrun, hcombine D hchar⟩

end IntelHex

namespace IntelHex

theorem mem_pySorted (l : List Nat) (a : Nat) : a ∈ pySorted l ↔ a ∈ l :=
  (List.perm_insertionSort (· ≤ ·) l).mem_iff

theorem pySorted_sorted (l : List Nat) : List.Sorted (· ≤ ·) (pySorted l) :=
  List.sorted_insertionSort (· ≤ ·) l

theorem sorted_head_le (x : Nat) (l : List Nat) (hs : List.Sorted (· ≤ ·) (x :: l)) :
    ∀ y ∈ x :: l, x ≤ y := by
  intro y hy
  rcases List.mem_cons.1 hy with h | h
  · subst h
    exact Nat.le_refl y
  · exact List.rel_of_sorted_cons hs y h

theorem sorted_le_getLast : ∀ (l : List Nat) (hne : l ≠ []), List.Sorted (· ≤ ·) l →
    ∀ y ∈ l, y ≤ l.getLast hne := by
  intro l
  induction l with
  | nil => intro hne; exact absurd rfl hne
  | cons x t ih =>
    intro hne hs y hy
    cases t with
    | nil =>
      simp only [List.mem_singleton] at hy
      subst hy
      simp [List.getLast_singleton]
    | cons z zs =>
      rw [List.getLast_cons (by simp)]
      rcases List.mem_cons.1 hy with h1 | h1
      · subst h1
        exact List.rel_of_sorted_cons hs _ (List.getLast_mem (by simp))
      · exact ih (by simp) hs.of_cons y h1

theorem getLast_mem_self (l : List Nat) (hne : l ≠ []) : l.getLast hne ∈ l :=
  List.getLast_mem hne

theorem rangeStep_mem (start stop step k : Nat) (hk : k < (stop - start + (step - 1)) / step) :
    start + step * k ∈ rangeStep start stop step := by
  rw [rangeStep, List.mem_map]
  exact ⟨k, List.mem_range.2 hk, rfl⟩

theorem coveredBy_of_range (a0 last a : Nat) (h0 : a0 ≤ a) (h1 : a ≤ last) :
    coveredBy (rangeStep a0 (last + 1) 32) a = true := by
  rw [coveredBy, List.any_eq_true]
  refine ⟨a0 + 32 * ((a - a0) / 32), rangeStep_mem a0 (last + 1) 32 _ (by omega), ?_⟩
  simp only [decide_eq_true_eq]
  omega

theorem rangeStep_le_last (a0 last b : Nat) (h0 : a0 ≤ last)
    (hb : b ∈ rangeStep a0 (last + 1) 32) : b ≤ last := by
  rw [rangeStep, List.mem_map] at hb
  rcases hb with ⟨k, hk, rfl⟩
  rw [List.mem_range] at hk
  omega

end IntelHex

namespace IntelHex

theorem dictKeys_lt (hf : IntelHexFile) (haddr : ∀ p ∈ hf.data, p.1 < 4294967296) :
    ∀ k ∈ dictKeys hf.data, k < 4294967296 := by
  intro k hk
  rcases List.mem_map.1 hk with ⟨p, hp, rfl⟩
  exact haddr p hp

/-- Claim C1, amended.  For any memory image with at least one populated
address, all byte values below 256 and all addresses below 2^32 (the 32-bit
address space of the design), saving and re-loading succeeds and the reloaded
image agrees with the original on every populated address; every other
address is either still unpopulated or was padded to the fill byte 0xFF by
the 32-byte chunking of `save_file`.  (The claim as literally stated — an
identical populated-address-to-value mapping — is refuted by
`claim_C1_counterexample`: chunk padding populates new addresses with 0xFF,
and an explicit Start-Linear-Address entry point is not re-emitted.) -/
theorem claim_C1_roundtrip (hf : IntelHexFile)
    (hne : hf.data ≠ [])
    (hval : ∀ p ∈ hf.data, p.2 < 256)
    (haddr : ∀ p ∈ hf.data, p.1 < 4294967296) :
    ∃ lines img,
      save_file hf = some lines ∧
      load_file emptyHF lines = .ok img ∧
      (∀ a v, dictGet hf.data a = some v → dictGet img.data a = some v) ∧
      (∀ a, dictGet hf.data a = none →
        dictGet img.data a = none ∨ dictGet img.data a = some 0xFF) := by
  have hkne : dictKeys hf.data ≠ [] := by
    intro h
    exact hne (List.map_eq_nil_iff.1 h)
  cases hsort : pySorted (dictKeys hf.data) with
  | nil =>
    exfalso
    have := (mem_pySorted (dictKeys hf.data) ((dictKeys hf.data).getLast hkne)).2
      (getLast_mem_self _ hkne)
    rw [hsort] at this
    exact List.not_mem_nil _ this
  | cons a0 tl =>
    have hsorted : List.Sorted (· ≤ ·) (a0 :: tl) := by
      rw [← hsort]
      exact pySorted_sorted _
    set last := (a0 :: tl).getLast (List.cons_ne_nil a0 tl) with hlast
    have hkey_bounds : ∀ k ∈ dictKeys hf.data, a0 ≤ k ∧ k ≤ last := by
      intro k hk
      have hk' : k ∈ a0 :: tl := by
        rw [← hsort]
        exact (mem_pySorted _ _).2 hk
      exact ⟨sorted_head_le a0 tl hsorted k hk',
        sorted_le_getLast (a0 :: tl) (List.cons_ne_nil a0 tl) hsorted k hk'⟩
    have hlast_mem : last ∈ dictKeys hf.data := by
      have hmem : last ∈ pySorted (dictKeys hf.data) := by
        rw [hsort, hlast]
        exact getLast_mem_self (a0 :: tl) (List.cons_ne_nil a0 tl)
      exact (mem_pySorted _ _).1 hmem
    have ha0_le : a0 ≤ last := (hkey_bounds last hlast_mem).1
    have hlast_lt : last < 4294967296 := dictKeys_lt hf haddr last hlast_mem
    have hbases : ∀ b ∈ rangeStep a0 (last + 1) 32, b < 4294967296 := by
      intro b hb
      have := rangeStep_le_last a0 last b ha0_le hb
      omega
    obtain ⟨D, fda', hrun, hchar⟩ := load_save_chunks hf.data hval
      (rangeStep a0 (last + 1) 32) hbases none 0
      (fun la hla => Option.noConfusion hla) emptyHF none
    have hsave : save_file hf
        = some (save_chunks hf.data (rangeStep a0 (last + 1) 32) none ++ [eofLine]) := by
      simp only [save_file, hsort, hlast]
    refine ⟨save_chunks hf.data (rangeStep a0 (last + 1) 32) none ++ [eofLine],
      { data := D, start_address := fda' }, hsave, ?_, ?_, ?_⟩
    · simp only [load_file, hrun]
      rfl
    · intro a v hget
      have hmem := mem_dictKeys_of_get hf.data a v hget
      obtain ⟨h0, h1⟩ := hkey_bounds a hmem
      have := hchar a
      rw [if_pos (coveredBy_of_range a0 last a h0 h1)] at this
      simp only []
      rw [this, hget]
      rfl
    · intro a hget
      have := hchar a
      by_cases hcov : coveredBy (rangeStep a0 (last + 1) 32) a
      · right
        rw [if_pos hcov] at this
        simp only []
        rw [this, hget]
        rfl
      · left
        rw [if_neg hcov] at this
        simp only []
        rw [this]
        rfl

/-- Witness for the amended claim C1 at the concrete image with the single
populated byte 0x42 at address 5. -/
theorem claim_C1_roundtrip_witness :
    ∃ lines img,
      save_file { data := [(5, 0x42)], start_address := none } = some lines ∧
      load_file emptyHF lines = .ok img ∧
      (∀ a v, dictGet ({ data := [(5, 0x42)], start_address := none } : IntelHexFile).data a = some v
        → dictGet img.data a = some v) ∧
      (∀ a, dictGet ({ data := [(5, 0x42)], start_address := none } : IntelHexFile).data a = none →
        dictGet img.data a = none ∨ dictGet img.data a = some 0xFF) :=
  claim_C1_roundtrip { data := [(5, 0x42)], start_address := none }
    (by decide) (by decide) (by decide)

/-- Counterexample to claim C1 as literally stated.  Loading the two-line
file data-at-0/end-of-file gives the image `c1Img` whose only populated
address is 0; saving it and loading the result back (`c1Reload`) yields an
image additionally populated with the pad byte 0xFF at address 1 (and
2..31), so the populated-address-to-value mapping is not identical.
Moreover, an explicitly decoded Start-Linear-Address entry point
(`c1bImg`, entry 0x12345678) is not preserved by a save/load round
trip: `c1bReload` has entry 0 although the original entry point was
explicit, not inferred. -/
theorem claim_C1_counterexample :
    load_file emptyHF [":0100000042BD".toList, ":00000001FF".toList] = .ok c1Img
    ∧ dictGet c1Img.data 1 = none
    ∧ (save_file c1Img).isSome = true
    ∧ (load_file emptyHF c1SavedLines).isOk = true
    ∧ dictGet c1Reload.data 0 = some 0x42
    ∧ dictGet c1Reload.data 1 = some 0xFF
    ∧ load_file emptyHF
        [":0400000512345678E3".toList, ":0100000042BD".toList, ":00000001FF".toList]
        = .ok c1bImg
    ∧ c1bImg.start_address = some 0x12345678
    ∧ c1bReload.start_address = some 0 :=
  ⟨rfl, rfl, rfl, rfl, rfl, rfl, rfl, rfl, rfl⟩

end IntelHex

namespace IntelHex

theorem hexToNat?_nil : hexToNat? [] = none := rfl

theorem hexToNat?_some_of (l : List Char) (hne : l ≠ [])
    (hh : ∀ c ∈ l, isHexDigit c = true) : hexToNat? l = some (hexVal l) := by
  rw [hexToNat?, if_neg hne, if_pos (List.all_eq_true.2 hh)]

theorem fromhex?_odd_none : ∀ (n : Nat) (l : List Char), l.length = n →
    l.length % 2 = 1 → fromhex? l = none := by
  intro n
  induction n using Nat.strong_induction_on with
  | _ n ih =>
    intro l hl ho
    match l with
    | [] => simp at ho
    | [c] => rfl
    | c1 :: c2 :: t =>
      show (if isHexDigit c1 && isHexDigit c2 then
        (fromhex? t).map (fun bs => (16 * hexDigitVal c1 + hexDigitVal c2) :: bs)
        else none) = none
      by_cases hd : (isHexDigit c1 && isHexDigit c2) = true
      · rw [if_pos hd]
        have hlt : t.length < n := by
          simp only [List.length_cons] at hl
          omega
        rw [ih t.length hlt t rfl (by
          simp only [List.length_cons] at ho
          omega)]
        rfl
      · rw [if_neg hd]

theorem fromhex?_even_some : ∀ (n : Nat) (l : List Char), l.length = n →
    (∀ c ∈ l, isHexDigit c = true) → l.length % 2 = 0 →
    ∃ bs, fromhex? l = some bs := by
  intro n
  induction n using Nat.strong_induction_on with
  | _ n ih =>
    intro l hl hh he
    match l with
    | [] => exact ⟨[], rfl⟩
    | [c] => simp at he
    | c1 :: c2 :: t =>
      have hd : (isHexDigit c1 && isHexDigit c2) = true := by
        rw [Bool.and_eq_true]
        exact ⟨hh c1 (by simp), hh c2 (by simp)⟩
      have hlt : t.length < n := by
        simp only [List.length_cons] at hl
        omega
      obtain ⟨bs, hbs⟩ := ih t.length hlt t rfl
        (fun c hc => hh c (by simp [hc]))
        (by simp only [List.length_cons] at he; omega)
      refine ⟨(16 * hexDigitVal c1 + hexDigitVal c2) :: bs, ?_⟩
      show (if isHexDigit c1 && isHexDigit c2 then
        (fromhex? t).map (fun bs => (16 * hexDigitVal c1 + hexDigitVal c2) :: bs)
        else none) = _
      rw [if_pos hd, hbs]
      rfl

/-- Claim C2.  For every line that reaches the checksum comparison (the
marker is present and the count, address, type, payload and checksum fields
all parse), the checksum is recomputed over count, address high byte,
address low byte, type and payload bytes as (-(sum)) mod 256, and
`parse_line` fails with the checksum-mismatch ValueError — reporting the
expected (read) and computed values — exactly when this recomputed value
differs from the trailing checksum byte; otherwise it returns the record.
The record type is arbitrary, so the check runs on control records too. -/
theorem claim_C2_checksum (rest : List Char) (bc a rt chk : Nat) (ds : List Nat)
    (h1 : hexToNat? (pySlice rest 0 2) = some bc)
    (h2 : hexToNat? (pySlice rest 2 6) = some a)
    (h3 : hexToNat? (pySlice rest 6 8) = some rt)
    (h4 : fromhex? (pySlice rest 8 (8 + bc * 2)) = some ds)
    (h5 : hexToNat? (pySlice rest (8 + bc * 2) (10 + bc * 2)) = some chk) :
    (parse_line (':' :: rest)
        = .error (.checksumMismatch chk
            (negMod256 (bc + (a >>> 8) + (a &&& 0xFF) + rt + ds.sum)))
      ↔ negMod256 (bc + (a >>> 8) + (a &&& 0xFF) + rt + ds.sum) ≠ chk)
    ∧ (parse_line (':' :: rest) = .ok ⟨rt, a, ds⟩
      ↔ negMod256 (bc + (a >>> 8) + (a &&& 0xFF) + rt + ds.sum) = chk) := by
  simp only [parse_line, h1, h2, h3, h4, h5]
  by_cases hc : negMod256 (bc + (a >>> 8) + (a &&& 0xFF) + rt + ds.sum) = chk
  · rw [if_neg (fun hne => hne hc)]
    constructor
    · constructor
      · intro he
        exact absurd he (by simp)
      · intro hne
        exact absurd hc hne
    · simp [hc]
  · rw [if_pos hc]
    constructor
    · simp [hc]
    · constructor
      · intro he
        exact absurd he (by simp)
      · intro heq
        exact absurd heq hc

/-- Witness for C2 at the concrete data record line, whose checksum 0xBD is
correct, and at the same line with checksum altered to 0xBE. -/
theorem claim_C2_checksum_witness :
    ((parse_line (':' :: "0100000042BD".toList)
        = .error (.checksumMismatch 0xBD
            (negMod256 (1 + ((0 : Nat) >>> 8) + ((0 : Nat) &&& 0xFF) + 0 + ([0x42] : List Nat).sum)))
      ↔ negMod256 (1 + ((0 : Nat) >>> 8) + ((0 : Nat) &&& 0xFF) + 0 + ([0x42] : List Nat).sum) ≠ 0xBD)
    ∧ (parse_line (':' :: "0100000042BD".toList) = .ok ⟨0, 0, [0x42]⟩
      ↔ negMod256 (1 + ((0 : Nat) >>> 8) + ((0 : Nat) &&& 0xFF) + 0 + ([0x42] : List Nat).sum) = 0xBD))
    ∧ parse_line ":0100000042BE".toList = .error (.checksumMismatch 0xBE 0xBD) :=
  ⟨claim_C2_checksum "0100000042BD".toList 1 0 0 0xBD [0x42] rfl rfl rfl rfl rfl, rfl⟩

/-- Claim C3, amended.  When the count field declares more payload plus
checksum characters than remain after the type field, `parse_line` raises
ValueError (the TruncatedRecord case, `fieldError` here) — but only when at
least two of the required characters are missing, i.e. when fewer than
2*count + 1 hexadecimal characters remain.  When exactly 2*count + 1 remain
(only the final checksum digit is missing), `parse_line` can accept the
record: the one-character checksum slice parses as a one-digit value, which
`claim_C3_counterexample` shows can match the recomputed checksum, so the
claim as literally stated (decode always fails on truncated lines) is false. -/
theorem claim_C3_truncated (rest : List Char) (bc : Nat)
    (hhex : ∀ c ∈ rest, isHexDigit c = true)
    (hbc : hexToNat? (pySlice rest 0 2) = some bc)
    (hlen : rest.length < 9 + 2 * bc) :
    parse_line (':' :: rest) = .error .fieldError := by
  have hslice_hex : ∀ a b : Nat, ∀ c ∈ pySlice rest a b, isHexDigit c = true := by
    intro a b c hc
    exact hhex c (List.drop_subset a rest (List.take_subset _ _ hc))
  by_cases h2 : rest.length ≤ 2
  · have he : pySlice rest 2 6 = [] := by
      rw [pySlice, List.drop_eq_nil_of_le h2]
      rfl
    simp only [parse_line, hbc, he, hexToNat?_nil]
  · push_neg at h2
    have hne2 : pySlice rest 2 6 ≠ [] := by
      rw [pySlice]
      intro hnil
      rcases List.take_eq_nil_iff.1 hnil with hx | hx
      · omega
      · have := List.drop_eq_nil_iff.1 hx
        omega
    obtain ha := hexToNat?_some_of _ hne2 (hslice_hex 2 6)
    by_cases h6 : rest.length ≤ 6
    · have he : pySlice rest 6 8 = [] := by
        rw [pySlice, List.drop_eq_nil_of_le h6]
        rfl
      simp only [parse_line, hbc, ha, he, hexToNat?_nil]
    · push_neg at h6
      have hne6 : pySlice rest 6 8 ≠ [] := by
        rw [pySlice]
        intro hnil
        rcases List.take_eq_nil_iff.1 hnil with hx | hx
        · omega
        · have := List.drop_eq_nil_iff.1 hx
          omega
      obtain hr := hexToNat?_some_of _ hne6 (hslice_hex 6 8)
      have hDlen : (pySlice rest 8 (8 + bc * 2)).length
          = min (bc * 2) (rest.length - 8) := by
        rw [pySlice, List.length_take, List.length_drop]
        omega
      have hchk : pySlice rest (8 + bc * 2) (10 + bc * 2) = [] := by
        rw [pySlice, List.drop_eq_nil_of_le (by omega), List.take_nil]
      by_cases hpar : (min (bc * 2) (rest.length - 8)) % 2 = 1
      · have hodd := fromhex?_odd_none (pySlice rest 8 (8 + bc * 2)).length
          (pySlice rest 8 (8 + bc * 2)) rfl (by rw [hDlen]; exact hpar)
        simp only [parse_line, hbc, ha, hr, hodd]
      · obtain ⟨bs, hbs⟩ := fromhex?_even_some (pySlice rest 8 (8 + bc * 2)).length
          (pySlice rest 8 (8 + bc * 2)) rfl (hslice_hex 8 (8 + bc * 2))
          (by rw [hDlen]; omega)
        simp only [parse_line, hbc, ha, hr, hbs, hchk, hexToNat?_nil]

/-- Witness for the amended claim C3: the data record line truncated in the
middle of its payload is rejected with the field ValueError. -/
theorem claim_C3_truncated_witness :
    parse_line (':' :: "0100000042".toList) = .error .fieldError :=
  claim_C3_truncated "0100000042".toList 1 (by decide) rfl (by decide)

/-- Counterexample to claim C3 as literally stated: the line `:01000000FF0`
has only 3 characters after the type field although the declared count
requires 2*1 + 2 = 4 (one payload byte plus the checksum byte), yet
`parse_line` returns a record instead of failing — the one-digit checksum
slice parses as 0, which equals the recomputed checksum. -/
theorem claim_C3_counterexample :
    ((":01000000FF0".toList.drop 9).length < 2 * 1 + 2)
    ∧ parse_line ":01000000FF0".toList = .ok ⟨0, 0, [0xFF]⟩ :=
  ⟨by decide, rfl⟩

end IntelHex

namespace IntelHex

/-- Claim C4, amended.  When `load_file` succeeds on a fresh object, the
resulting entry point is: the payload of the last Start-Linear-Address
record decoded before the first End-Of-File record if there is one, and
otherwise the absolute address (extended offset ORed with the 16-bit address
field) of the first Data record decoded before the first End-Of-File record
(absent if there is none).  Records positioned after an End-Of-File record
are never decoded, so — contrary to the claim as literally stated, refuted
by `claim_C4_counterexample` — a Data record appearing only after the
End-Of-File record does not provide the entry point, and a
Start-Linear-Address record there is ignored. -/
theorem claim_C4_entry (lines : List (List Char)) (img : IntelHexFile)
    (h : load_file emptyHF lines = .ok img) :
    img.start_address = orElseO (lastSLA lines) (firstDataAddr lines 0) := by
  cases hrun : loadLoop lines emptyHF 0 none with
  | error e =>
    rw [load_file, hrun] at h
    exact absurd h (by simp)
  | ok p =>
    rcases p with ⟨st', fda'⟩
    obtain ⟨h1, h2⟩ := loadLoop_entry lines emptyHF 0 none st' fda' hrun
    have h1' : st'.start_address = lastSLA lines := by
      rw [h1]
      exact orElseO_none _
    have h2' : fda' = firstDataAddr lines 0 := h2
    rw [load_file, hrun] at h
    have himg : (match st'.start_address with
        | none => { st' with start_address := fda' }
        | some _ => st') = img := Except.ok.inj h
    cases hsla : lastSLA lines with
    | none =>
      rw [hsla] at h1'
      rw [← himg, h1']
      show fda' = orElseO none (firstDataAddr lines 0)
      rw [h2']
      rfl
    | some s =>
      rw [hsla] at h1'
      rw [← himg, h1']
      show st'.start_address = orElseO (some s) (firstDataAddr lines 0)
      rw [h1']
      rfl

/-- Witness for the amended claim C4 at the one-line file holding a single
Data record at address 0: the inferred entry point is that record's
address. -/
theorem claim_C4_entry_witness :
    (((load_file emptyHF [":0100000042BD".toList]).toOption.getD emptyHF).start_address
      = orElseO (lastSLA [":0100000042BD".toList])
          (firstDataAddr [":0100000042BD".toList] 0))
    ∧ orElseO (lastSLA [":0100000042BD".toList])
        (firstDataAddr [":0100000042BD".toList] 0) = some 0 :=
  ⟨claim_C4_entry [":0100000042BD".toList] _ rfl, rfl⟩

/-- Counterexample to claim C4 as literally stated: this line sequence
contains a Data record (with absolute address 0, first byte 0x42) and no
Start-Linear-Address record, yet loading it leaves the entry point absent
(`none` rather than `some 0`), because the Data record lies after the
End-Of-File record and is never decoded. -/
theorem claim_C4_counterexample :
    load_file emptyHF [":00000001FF".toList, ":0100000042BD".toList]
      = .ok { data := [], start_address := none }
    ∧ parse_line ":0100000042BD".toList = .ok ⟨0, 0, [0x42]⟩
    ∧ parse_line ":00000001FF".toList = .ok ⟨1, 0, []⟩ :=
  ⟨rfl, rfl, rfl⟩

/-- Claim C5.  Extended-address accumulation: each Extended Linear Address
record replaces the running offset by its big-endian payload shifted left 16
bits; each Data record is placed at the offset ORed with its 16-bit address
field (and the loader starts at offset 0, as `load_file` passes 0 to the
loop).  In particular the spec's concrete scenario holds: the payload-0001
extended record followed by a data record with address field 0x0010 places
its byte at absolute address 0x0001_0010. -/
theorem claim_C5_extended :
    (∀ (l : List Char) (rest : List (List Char)) (st : IntelHexFile) (ext : Nat)
        (fda : Option Nat) (a : Nat) (p : List Nat),
      parse_line (pyStrip l) = .ok ⟨4, a, p⟩ →
      loadLoop (l :: rest) st ext fda = loadLoop rest st (intFromBytesBE p <<< 16) fda)
    ∧ (∀ (l : List Char) (rest : List (List Char)) (st : IntelHexFile) (ext : Nat)
        (fda : Option Nat) (a : Nat) (ds : List Nat),
      parse_line (pyStrip l) = .ok ⟨0, a, ds⟩ →
      loadLoop (l :: rest) st ext fda
        = loadLoop rest { st with data := writeBytes st.data (ext ||| a) ds } ext
            (match fda with | none => some (ext ||| a) | some x => some x))
    ∧ load_file emptyHF [":020000040001F9".toList, ":01001000AB44".toList]
        = .ok { data := [(0x10010, 0xAB)], start_address := some 0x10010 } :=
  ⟨fun l rest st ext fda a p h => loadLoop_step_ela l rest st ext fda a p h,
   fun l rest st ext fda a ds h => loadLoop_step_data l rest st ext fda a ds h,
   rfl⟩

/-- Witness for claim C5: the extended-address step at the concrete record
`:020000040001F9` replaces the offset by 0x0001 shifted left 16 bits. -/
theorem claim_C5_extended_witness :
    loadLoop [":020000040001F9".toList] emptyHF 0 none
      = loadLoop [] emptyHF (intFromBytesBE [0x00, 0x01] <<< 16) none
    ∧ intFromBytesBE [0x00, 0x01] <<< 16 = 0x10000 :=
  ⟨claim_C5_extended.1 ":020000040001F9".toList [] emptyHF 0 none 0 [0x00, 0x01] rfl,
   by decide⟩

/-- Claim C7.  An End-Of-File record stops loading immediately: the loop
returns the state unchanged whatever lines follow, and consequently
`load_file` gives the same result whatever comes after the End-Of-File line —
lines there are never parsed or validated, so malformed ones cause no
failure and do not affect the image. -/
theorem claim_C7_eof (l : List Char) (a : Nat) (ds : List Nat)
    (h : parse_line (pyStrip l) = .ok ⟨1, a, ds⟩) :
    (∀ (st : IntelHexFile) (ext : Nat) (fda : Option Nat) (rest : List (List Char)),
      loadLoop (l :: rest) st ext fda = .ok (st, fda))
    ∧ (∀ (hf : IntelHexFile) (pre rest rest' : List (List Char)),
        load_file hf (pre ++ l :: rest) = load_file hf (pre ++ l :: rest')) := by
  constructor
  · intro st ext fda rest
    exact loadLoop_step_eof l rest st ext fda a ds h
  · intro hf pre rest rest'
    simp only [load_file]
    rw [loadLoop_stop_after_eof l a ds h pre hf 0 none rest rest']

/-- Witness for claim C7: a garbage line after the End-Of-File record is
ignored and the load result is unchanged. -/
theorem claim_C7_eof_witness :
    loadLoop [":00000001FF".toList, ":ZZ".toList] emptyHF 0 none = .ok (emptyHF, none)
    ∧ load_file emptyHF [":00000001FF".toList, ":ZZ".toList]
      = load_file emptyHF [":00000001FF".toList] :=
  ⟨(claim_C7_eof ":00000001FF".toList 0 [] rfl).1 emptyHF 0 none [":ZZ".toList],
   (claim_C7_eof ":00000001FF".toList 0 [] rfl).2 emptyHF [] [":ZZ".toList] []⟩

/-- Claim C8 concerns a code bug.  The claim (and the design document) say an
integer write value is normalized to an even number of hex digits before
being split into bytes, so that writing 0xABC stores 0x0A, 0xBC.  The code
formats with minimal width and no padding: 0xABC becomes the three-digit
string "ABC", split as "AB" and "C", storing 0xAB then 0x0C — the trailing
nibble is misaligned rather than padded. -/
theorem claim_C8_intwrite :
    toHex 0xABC = ['A', 'B', 'C']
    ∧ write_memory emptyHF 0 (.pyInt 0xABC)
      = ({ data := [(0, 0xAB), (1, 0x0C)], start_address := none }, none) :=
  ⟨rfl, rfl⟩

/-- Claim C9.  Whenever `write_memory` raises — TypeError for a value that
is neither str nor int, or ValueError for a non-hexadecimal string — the
memory image is completely unchanged: both raise sites precede the mutation
loop (the byte list comprehension is fully evaluated before the loop), so no
byte is written before the error. -/
theorem claim_C9_atomic (hf : IntelHexFile) (addr : Nat) (v : PyValue) (e : WriteError)
    (h : (write_memory hf addr v).2 = some e) :
    (write_memory hf addr v).1 = hf := by
  cases v with
  | pyOther => rfl
  | pyInt n =>
    simp only [write_memory] at h ⊢
    cases hl : listBytes? (toHex n) with
    | none => simp [hl]
    | some bs =>
      rw [hl] at h
      simp at h
  | pyStr s =>
    simp only [write_memory] at h ⊢
    cases hl : listBytes? ((s.dropWhile (fun c => c = '0' || c = 'x')).map Char.toUpper) with
    | none => simp [hl]
    | some bs =>
      rw [hl] at h
      simp at h

/-- Witness for claim C9 at both failing cases: a non-str/int value
(TypeError) and a non-hexadecimal string (ValueError); the image is
unchanged in both. -/
theorem claim_C9_atomic_witness :
    (write_memory emptyHF 0 .pyOther).2 = some .typeError
    ∧ (write_memory emptyHF 0 .pyOther).1 = emptyHF
    ∧ (write_memory emptyHF 3 (.pyStr "GG".toList)).2 = some .valueError
    ∧ (write_memory emptyHF 3 (.pyStr "GG".toList)).1 = emptyHF :=
  ⟨rfl, claim_C9_atomic emptyHF 0 .pyOther .typeError rfl, rfl,
   claim_C9_atomic emptyHF 3 (.pyStr "GG".toList) .valueError rfl⟩

/-- Claim C10 (implicit).  `write_memory` strips every leading character in
the set 0, x from a string value — not just an exact "0x" prefix — before
upper-casing and parsing: prepending any such character never changes the
result, so a hex string beginning with zero bytes (e.g. "00AB") has those
leading zeros dropped and only the remaining bytes written; and an
upper-case "0X" prefix is not fully stripped (the X survives, and parsing
then fails with ValueError). -/
theorem claim_C10_strip :
    (∀ (hf : IntelHexFile) (addr : Nat) (c : Char) (s : List Char),
      (c = '0' ∨ c = 'x') →
      write_memory hf addr (.pyStr (c :: s)) = write_memory hf addr (.pyStr s))
    ∧ write_memory emptyHF 0 (.pyStr "00AB".toList)
        = ({ data := [(0, 0xAB)], start_address := none }, none)
    ∧ (write_memory emptyHF 0 (.pyStr "0XAB".toList)).2 = some .valueError := by
  refine ⟨?_, rfl, rfl⟩
  intro hf addr c s hc
  have hp : (c = '0' || c = 'x') = true := by
    rcases hc with h | h <;> simp [h]
  simp only [write_memory, List.dropWhile_cons, hp, if_true]

/-- Witness for claim C10: prepending a leading zero character leaves the
write unchanged. -/
theorem claim_C10_strip_witness :
    write_memory emptyHF 0 (.pyStr ('0' :: "AB".toList))
      = write_memory emptyHF 0 (.pyStr "AB".toList) :=
  claim_C10_strip.1 emptyHF 0 '0' "AB".toList (Or.inl rfl)

end IntelHex

namespace IntelHex

theorem hexDigitChar_mem_upper : ∀ k, k < 16 →
    hexDigitChar k ∈ "0123456789ABCDEF".toList := by decide

theorem toHexFuel_chars : ∀ f m c, c ∈ toHexFuel f m →
    ∃ k, k < 16 ∧ c = hexDigitChar k := by
  intro f
  induction f with
  | zero => intro m c h; simp [toHexFuel] at h
  | succ f ih =>
    intro m c h
    by_cases hm : m < 16
    · simp [toHexFuel, hm] at h
      exact ⟨m, hm, h⟩
    · simp [toHexFuel, hm] at h
      rcases h with h | h
      · exact ih _ _ h
      · exact ⟨m % 16, Nat.mod_lt _ (by omega), h⟩

theorem fmtHex_mem_upper (w n : Nat) : ∀ c ∈ fmtHex w n,
    c ∈ "0123456789ABCDEF".toList := by
  intro c hc
  rw [fmtHex, List.mem_append] at hc
  rcases hc with hc | hc
  · have := List.eq_of_mem_replicate hc
    subst this
    decide
  · obtain ⟨k, hk, rfl⟩ := toHexFuel_chars _ _ c hc
    exact hexDigitChar_mem_upper k hk

theorem read_memory_succ (hf : IntelHexFile) (addr n : Nat) :
    read_memory hf addr (n + 1)
      = read_memory hf addr n ++ fmtHex 2 ((dictGet hf.data (addr + n)).getD 0xFF) := by
  simp [read_memory, List.range_succ]

theorem read_memory_length (hf : IntelHexFile) (h : ∀ p ∈ hf.data, p.2 < 256)
    (addr : Nat) : ∀ n, (read_memory hf addr n).length = 2 * n := by
  intro n
  induction n with
  | zero => rfl
  | succ n ih =>
    rw [read_memory_succ, List.length_append, ih,
      length_fmtHex 2 _ (by omega) (by rw [pow16_two]; exact chunkByte_lt hf.data h _)]
    omega

theorem pySlice_append_left (A B : List Char) (a b : Nat) (hb : b ≤ A.length) :
    pySlice (A ++ B) a b = pySlice A a b := by
  by_cases hab : a ≤ A.length
  · rw [pySlice, pySlice, List.drop_append_of_le_length hab,
      List.take_append_of_le_length (by rw [List.length_drop]; omega)]
  · rw [pySlice, pySlice]
    have hba : b - a = 0 := by omega
    rw [hba, List.take_zero, List.take_zero]

/-- Claim C6.  `read_memory` is total on numeric addresses and lengths: it
returns exactly two characters per requested position (never failing,
whether or not the addresses are populated), each position rendered as the
stored byte where the cell is populated and as the fill byte 0xFF where it
was never written, as two upper-case hexadecimal digits. -/
theorem claim_C6_read (hf : IntelHexFile) (h : ∀ p ∈ hf.data, p.2 < 256)
    (addr n : Nat) :
    (read_memory hf addr n).length = 2 * n
    ∧ (∀ c ∈ read_memory hf addr n, c ∈ "0123456789ABCDEF".toList)
    ∧ (∀ i, i < n →
        pySlice (read_memory hf addr n) (2 * i) (2 * i + 2)
          = fmtHex 2 ((dictGet hf.data (addr + i)).getD 0xFF)
        ∧ hexToNat? (pySlice (read_memory hf addr n) (2 * i) (2 * i + 2))
          = some ((dictGet hf.data (addr + i)).getD 0xFF)) := by
  refine ⟨read_memory_length hf h addr n, ?_, ?_⟩
  · induction n with
    | zero =>
      intro c hc
      simp [read_memory] at hc
    | succ n ih =>
      intro c hc
      rw [read_memory_succ, List.mem_append] at hc
      rcases hc with hc | hc
      · exact ih c hc
      · exact fmtHex_mem_upper _ _ c hc
  · induction n with
    | zero =>
      intro i hi
      omega
    | succ n ih =>
      intro i hi
      by_cases hin : i < n
      · obtain ⟨e1, e2⟩ := ih i hin
        rw [read_memory_succ,
          pySlice_append_left _ _ _ _ (by rw [read_memory_length hf h addr n]; omega)]
        exact ⟨e1, e2⟩
      · have hieq : i = n := by omega
        subst hieq
        have hflen : (fmtHex 2 ((dictGet hf.data (addr + i)).getD 0xFF)).length = 2 :=
          length_fmtHex 2 _ (by omega)
            (by rw [pow16_two]; exact chunkByte_lt hf.data h _)
        have hslice : pySlice (read_memory hf addr (i + 1)) (2 * i) (2 * i + 2)
            = fmtHex 2 ((dictGet hf.data (addr + i)).getD 0xFF) := by
          rw [read_memory_succ, pySlice,
            drop_len_append _ _ (2 * i) (read_memory_length hf h addr i),
            show 2 * i + 2 - 2 * i = 2 from by omega]
          exact List.take_of_length_le (by rw [hflen])
        exact ⟨hslice, by rw [hslice, hexToNat?_fmtHex]⟩

/-- Witness for claim C6 at a concrete image (one byte 0xAB at address 5)
and a read of two bytes starting at address 4: the first position is
unpopulated (rendered FF), the second holds 0xAB. -/
theorem claim_C6_read_witness :
    (((read_memory { data := [(5, 0xAB)], start_address := none } 4 2).length = 2 * 2)
    ∧ (∀ c ∈ read_memory { data := [(5, 0xAB)], start_address := none } 4 2,
        c ∈ "0123456789ABCDEF".toList)
    ∧ (∀ i, i < 2 →
        pySlice (read_memory { data := [(5, 0xAB)], start_address := none } 4 2)
            (2 * i) (2 * i + 2)
          = fmtHex 2 ((dictGet ({ data := [(5, 0xAB)], start_address := none } : IntelHexFile).data (4 + i)).getD 0xFF)
        ∧ hexToNat? (pySlice (read_memory { data := [(5, 0xAB)], start_address := none } 4 2)
            (2 * i) (2 * i + 2))
          = some ((dictGet ({ data := [(5, 0xAB)], start_address := none } : IntelHexFile).data (4 + i)).getD 0xFF)))
    ∧ read_memory { data := [(5, 0xAB)], start_address := none } 4 2 = "FFAB".toList :=
  ⟨claim_C6_read { data := [(5, 0xAB)], start_address := none } (by decide) 4 2, rfl⟩

end IntelHex
